import Mathlib

/-!
Verification of the structural source chunker of this repository
(`src/chunker.ts`, class `BallerinaChunker`, method `chunkBallerinaCode`),
shallowly embedded over `List Char` with JavaScript string/regex semantics
made explicit.  Each regular expression of the source is distilled into a
deterministic matcher that reproduces the regex engine's leftmost-first,
greedy/lazy backtracking behaviour on that concrete pattern; the `g`/`m`
scanning loop (`exec` with `lastIndex`) is a generic scanner over start
positions.  All definitions are executable so concrete inputs can be decided.
-/

set_option maxRecDepth 20000
set_option maxHeartbeats 4000000

/-- Source text as a list of characters (JS strings of ASCII text). -/
abbrev Code := List Char

/-- JS regex `\s` / `String.prototype.trim` character class: ECMAScript
WhiteSpace and LineTerminator code points. -/
def isSpaceJS (c : Char) : Bool :=
  c = ' ' || c = '\t' || c = '\n' || c = '\x0b' || c = '\x0c' || c = '\r' ||
  c = '\u00a0' || c = '\u1680' ||
  ('\u2000' ≤ c && c ≤ '\u200a') ||
  c = '\u2028' || c = '\u2029' || c = '\u202f' || c = '\u205f' ||
  c = '\u3000' || c = '\ufeff'

/-- JS regex `\w` character class. -/
def isWordCh (c : Char) : Bool :=
  ('a' ≤ c && c ≤ 'z') || ('A' ≤ c && c ≤ 'Z') || ('0' ≤ c && c ≤ '9') || c = '_'

/-- Character class `[\w:]` used for type annotations in the source regexes. -/
def isWordColon (c : Char) : Bool := isWordCh c || c = ':'

/-- ECMAScript LineTerminator (what `.` does not match and what multiline `^`
anchors after). -/
def isLineTermJS (c : Char) : Bool :=
  c = '\n' || c = '\r' || c = '\u2028' || c = '\u2029'

/-- Character class `[\w\d_/\-]` of the service path regex. -/
def isPathCh (c : Char) : Bool := isWordCh c || c = '/' || c = '-'

/-- Character at an index, `none` past the end. -/
def charAt? (code : Code) (i : Nat) : Option Char := code.get? i

/-- `true` iff the literal `lit` occurs at index `i` (entirely inside `code`). -/
def isAt (code : Code) (i : Nat) (lit : List Char) : Bool :=
  (code.drop i).take lit.length == lit

/-- Match a literal at `i`; on success return the index one past it. -/
def litAt (code : Code) (i : Nat) (lit : List Char) : Option Nat :=
  if isAt code i lit then some (i + lit.length) else none

/-- Length of the maximal run of characters satisfying `P` at the head. -/
def runLen (P : Char → Bool) : List Char → Nat
  | [] => 0
  | c :: t => if P c then runLen P t + 1 else 0

/-- End index of the maximal run of `P`-characters starting at `i`
(greedy `P*`). -/
def runEnd (P : Char → Bool) (code : Code) (i : Nat) : Nat :=
  i + runLen P (code.drop i)

/-- Greedy `P+`: as `runEnd` but requires at least one character. -/
def plusRun (P : Char → Bool) (code : Code) (i : Nat) : Option Nat :=
  if i < runEnd P code i then some (runEnd P code i) else none

/-- Index of the first character satisfying `P`, if any. -/
def findIdxL (P : Char → Bool) : List Char → Option Nat
  | [] => none
  | c :: t => if P c then some 0 else (findIdxL P t).map (· + 1)

/-- First index `≥ i` whose character satisfies `P`. -/
def findFrom (P : Char → Bool) (code : Code) (i : Nat) : Option Nat :=
  (findIdxL P (code.drop i)).map (· + i)

/-- First index `≥ i` holding character `ch`. -/
def findCh (code : Code) (i : Nat) (ch : Char) : Option Nat :=
  findFrom (· == ch) code i

/-- Last index `k ≤ f` with `code[k] = ch`, or `none`: JS
`String.prototype.lastIndexOf(ch, f)` (whose fromIndex is clamped below at 0,
which the nat-subtraction call sites reproduce). -/
def lastIdxLe (code : Code) (ch : Char) : Nat → Option Nat
  | 0 => if charAt? code 0 == some ch then some 0 else none
  | f + 1 => if charAt? code (f + 1) == some ch then some (f + 1)
             else lastIdxLe code ch f

/-- Last index at which the literal `lit` starts with the occurrence entirely
inside the prefix `code[0, p)`: JS `code.substring(0, p).lastIndexOf(lit)`
(as an `Option`; the source's `-1` is `none`). -/
def lastOccur (code : Code) (p : Nat) (lit : List Char) : Option Nat :=
  if lit.length ≤ p then
    (List.range (p - lit.length + 1)).reverse.find? (fun k => isAt code k lit)
  else none

/-- End of the current line: first LineTerminator index at or after `p`
(or the text's end).  This is how far `.` can reach from `p`. -/
def lineEndFrom (code : Code) (p : Nat) : Nat :=
  runEnd (fun ch => !(isLineTermJS ch)) code p

/-- Multiline `^`: position 0 or just after a LineTerminator. -/
def isLineStart (code : Code) (p : Nat) : Bool :=
  p == 0 || (match charAt? code (p - 1) with
             | some c => isLineTermJS c
             | none => false)

/-- The source substring `code[a, b)` as a `String` (JS `slice`). -/
def sl (code : Code) (a b : Nat) : String :=
  String.mk ((code.drop a).take (b - a))

/-- JS `String.prototype.trim` on a character list. -/
def trimL (s : List Char) : List Char :=
  ((s.dropWhile isSpaceJS).reverse.dropWhile isSpaceJS).reverse

/-- JS `String.prototype.trim`. -/
def trimJS (s : String) : String := String.mk (trimL s.toList)

/-- Number of segments produced by JS `code.split(/\r?\n/)`: one more than the
number of separator matches; each separator consumes exactly one `'\n'`
(preceded by an optional `'\r'`). -/
def segCount : List Char → Nat
  | [] => 1
  | '\r' :: '\n' :: t => segCount t + 1
  | '\n' :: t => segCount t + 1
  | _ :: t => segCount t

/-- `getLineNumber` of the source: `code.slice(0, index).split(/\r?\n/).length`. -/
def getLineNumber (code : Code) (index : Nat) : Nat :=
  segCount (code.take index)

/-- `code.lastIndexOf("\n", index - 1)` as an `Int` (`-1` when absent); the JS
fromIndex `index - 1` is clamped below at `0`, which `Nat` subtraction gives. -/
def jsLastNl (code : Code) (index : Nat) : Int :=
  match lastIdxLe code '\n' (index - 1) with
  | some k => (k : Int)
  | none => -1

/-- `getColumnNumber` of the source:
`index - (lastNewline + 1) + 1` (1-based column). -/
def getColumnNumber (code : Code) (index : Nat) : Int :=
  (index : Int) - (jsLastNl code index + 1) + 1

/-- A (line, column) pair of the source's position objects. -/
structure Pos where
  line : Nat
  column : Int
deriving DecidableEq, Repr

/-- The `position` object `{start, end}` built by `buildMetadata`. -/
structure Span where
  start : Pos
  endPos : Pos
deriving DecidableEq, Repr

/-- The metadata object attached to a chunk.  Union of the fields the source
assigns across all chunk kinds; fields a kind does not set stay `none`
(absent).  `id` and `hash` are declared required by `src/types.ts` but are
never assigned anywhere in `chunker.ts`, so they are `Option`s here and every
constructed metadata leaves them `none`. -/
structure Metadata where
  type : String
  name : Option String := none
  file : String := ""
  line : Nat := 0
  endLine : Nat := 0
  position : Span := ⟨⟨0, 0⟩, ⟨0, 0⟩⟩
  visibility : Option String := none
  parameters : Option (List String) := none
  returnType : Option String := none
  path : Option String := none
  listener : Option String := none
  servicePath : Option String := none
  serviceListener : Option String := none
  httpMethod : Option String := none
  resourcePath : Option String := none
  fullPath : Option String := none
  id : Option String := none
  hash : Option String := none
deriving DecidableEq, Repr

/-- A chunk as produced by `chunkBallerinaCode`. -/
structure Chunk where
  content : String
  metadata : Metadata
deriving DecidableEq, Repr

/-- `buildMetadata` of the source: spreads the base object and adds `line`,
`endLine` and `position`, computed at the match's start offset and at the
start offset plus the match length. -/
def buildMetadata (base : Metadata) (code : Code) (idx len : Nat) : Metadata :=
  { base with
    line := getLineNumber code idx
    endLine := getLineNumber code (idx + len)
    position :=
      ⟨⟨getLineNumber code idx, getColumnNumber code idx⟩,
       ⟨getLineNumber code (idx + len), getColumnNumber code (idx + len)⟩⟩ }

/-- Split a character list at every occurrence of a separator character
(the segments between separators, in order; empty segments kept). -/
def splitChAux (c : Char) : List Char → List Char → List (List Char)
  | [], acc => [acc.reverse]
  | x :: xs, acc =>
    if x = c then acc.reverse :: splitChAux c xs [] else splitChAux c xs (x :: acc)

/-- `path.basename` for the POSIX paths the chunker passes in: the last
non-empty `/`-separated segment, or the path itself if there is none. -/
def basename (fp : String) : String :=
  String.mk (((splitChAux '/' fp.toList []).filter (· ≠ [])).getLastD fp.toList)

/-- `params.split(",").map(p => p.trim()).filter(Boolean)`. -/
def splitParams (s : String) : List String :=
  (((splitChAux ',' s.toList []).map (fun l => String.mk (trimL l))).filter (· ≠ ""))

/-- One raw regex match: start index, one-past-the-end index, and the
captured groups (per-classifier record `α`). -/
structure Mtc (α : Type) where
  idx : Nat
  stop : Nat
  caps : α
deriving DecidableEq, Repr

/-- The `while ((match = re.exec(code)) !== null)` loop: try each start
position left to right; on a match, emit it and resume at its end
(`lastIndex`), bumping by one on an empty match as JS does. -/
def scanAux (tryAt : Nat → Option (Nat × α)) : Nat → Nat → List (Mtc α)
  | 0, _ => []
  | fuel + 1, pos =>
    match tryAt pos with
    | some (stp, a) =>
      ⟨pos, stp, a⟩ :: scanAux tryAt fuel (if pos < stp then stp else pos + 1)
    | none => scanAux tryAt fuel (pos + 1)

/-- All matches of a pattern over `code` (fuel covers every start position). -/
def scanMatches (tryAt : Nat → Option (Nat × α)) (len : Nat) : List (Mtc α) :=
  scanAux tryAt (len + 1) 0

/-- Try candidate start offsets `u, u+1, ...` (at most `fuel` of them) and
return the first success: the lazy `.*?` prefix of the multiline patterns. -/
def firstIn (f : Nat → Option α) : Nat → Nat → Option α
  | _, 0 => none
  | u, fuel + 1 =>
    match f u with
    | some r => some r
    | none => firstIn f (u + 1) fuel

/-- The body group `((?:[^{}]|\{(?:[^{}]|\{[^{}]*\})*\})*)` followed by `\}`:
a deterministic scan inside an already-open brace, tolerating at most two
further nesting levels, failing on deeper nesting or an unclosed block
(exactly when the bounded-alternation regex fails).  Returns the number of
characters consumed up to and including the closing `'}'`. -/
def braceScan : List Char → Nat → Option Nat
  | [], _ => none
  | c :: t, d =>
    if c = '}' then
      if d = 0 then some 1 else (braceScan t (d - 1)).map (· + 1)
    else if c = '{' then
      if 2 ≤ d then none else (braceScan t (d + 1)).map (· + 1)
    else (braceScan t d).map (· + 1)

/-- Match `\{BODY\}` at index `i` (which must hold `'{'`): returns the index
one past the matching `'}'`. -/
def parseBal2 (code : Code) (i : Nat) : Option Nat :=
  if charAt? code i == some '{' then
    (braceScan (code.drop (i + 1)) 0).map (fun k => i + 1 + k)
  else none

/-- Substring occurrence test (JS `includes` / the regex lookahead's
`.*keyword`): `lit` occurs contiguously inside `s`. -/
def occursIn (lit : List Char) (s : List Char) : Bool :=
  (List.range (s.length + 1)).any (fun k => (s.drop k).take lit.length == lit)

/-- The literal `"import"` etc. as character lists. -/
def kwImport : List Char := String.toList "import"

def kwConfigurable : List Char := String.toList "configurable"

def kwFinal : List Char := String.toList "final"

def kwType : List Char := String.toList "type"

def kwPublic : List Char := String.toList "public"

def kwFunction : List Char := String.toList "function"

def kwReturns : List Char := String.toList "returns"

def kwService : List Char := String.toList "service"

def kwResource : List Char := String.toList "resource"

def kwOn : List Char := String.toList "on"

def kwClass : List Char := String.toList "class"

/-- Match `/import\s+[^;]+;/` at `p`.  After the literal there must be at
least one whitespace character and at least one further character before the
first `';'`, which closes the match (greedy `\s+`/`[^;]+` cannot cross a
`';'`, so backtracking always lands on the first one). -/
def impTry (code : Code) (p : Nat) : Option (Nat × Unit) := do
  let i ← litAt code p kwImport
  let c0 ← charAt? code i
  if isSpaceJS c0 then
    let q ← findCh code i ';'
    if i + 2 ≤ q then some (q + 1, ()) else none
  else none

/-- The sub-pattern `[\w:]+\s+(\w+)\s*=\s*[^;]+;` shared by the configurable,
module-variable and constant matchers: type token, spaces, name, optional
spaces, `'='`, then everything up to and including the first `';'` after it
(which must not be immediate, as `[^;]+` needs one character; `\s*` can always
donate its characters to `[^;]+`, so only the first `';'` position matters).
Returns `(stop, nameStart, nameEnd)`. -/
def declTail (code : Code) (w : Nat) : Option (Nat × Nat × Nat) := do
  let a ← plusRun isWordColon code w
  let b ← plusRun isSpaceJS code a
  let c ← plusRun isWordCh code b
  let d := runEnd isSpaceJS code c
  let e ← litAt code d [ '=' ]
  let q ← findCh code e ';'
  if e < q then some (q + 1, b, c) else none

/-- Match `/configurable\s+[\w:]+\s+\w+\s*=\s*[^;]+;/` at `p`. -/
def configTry (code : Code) (p : Nat) : Option (Nat × Unit) := do
  let i ← litAt code p kwConfigurable
  let j ← plusRun isSpaceJS code i
  let (stop, _, _) ← declTail code j
  some (stop, ())

/-- The name re-extraction `match[0].match(/configurable\s+[\w:]+\s+(\w+)/)`
run on the matched slice: leftmost start offset wins. -/
def configNameTry (s : Code) (u : Nat) : Option String := do
  let i ← litAt s u kwConfigurable
  let j ← plusRun isSpaceJS s i
  let a ← plusRun isWordColon s j
  let b ← plusRun isSpaceJS s a
  let c ← plusRun isWordCh s b
  some (sl s b c)

/-- `variableMatch ? variableMatch[1] : null` for a configurable variable. -/
def configName (s : Code) : Option String :=
  firstIn (fun u => configNameTry s u) 0 (s.length + 1)

/-- The tail `(?:final\s+)?[\w:]+\s+(\w+)\s*=\s*[^;]+;` of the
module-variable pattern at offset `u`: the greedy optional `final\s+` is
tried first and abandoned only if the rest fails after it (no donation is
possible between the disjoint character classes). -/
def modVarTailAt (code : Code) (u : Nat) : Option Nat :=
  match (do
      let v ← litAt code u kwFinal
      let v ← plusRun isSpaceJS code v
      declTail code v) with
  | some r => some r.1
  | none => (declTail code u).map (fun r => r.1)

/-- The name re-extraction `/(?:final\s+)?[\w:]+\s+(\w+)/` at offset `u`. -/
def modVarNameTry (s : Code) (u : Nat) : Option String :=
  let rest (w : Nat) : Option String := do
    let a ← plusRun isWordColon s w
    let b ← plusRun isSpaceJS s a
    let c ← plusRun isWordCh s b
    some (sl s b c)
  match (do
      let v ← litAt s u kwFinal
      let v ← plusRun isSpaceJS s v
      rest v) with
  | some nm => some nm
  | none => rest u

/-- `variableMatch ? variableMatch[1] : null` for a module-level variable. -/
def modVarName (s : Code) : Option String :=
  firstIn (fun u => modVarNameTry s u) 0 (s.length + 1)

/-- Keywords whose presence on the line defeats the module-variable
lookahead `(?!.*(?:function|service|resource|type|import|configurable))`. -/
def modVarKeywords : List (List Char) :=
  [kwFunction, kwService, kwResource, kwType, kwImport, kwConfigurable]

/-- The current line's characters, `code[p, lineEnd)`. -/
def lineSeg (code : Code) (p : Nat) : Code :=
  (code.drop p).take (lineEndFrom code p - p)

/-- Match the module-variable pattern
`/^(?!.*(?:function|service|resource|type|import|configurable)).*?(?:final\s+)?[\w:]+\s+(\w+)\s*=\s*[^;]+;/gm`
at `p`: multiline `^` anchors at line starts; the negative lookahead fails if
any of the six keywords occurs in the rest of the line (keywords contain no
line terminator, so infix of the line segment is exact); lazy `.*?` stays on
the line and takes the first offset at which the tail matches. -/
def modVarTry (code : Code) (p : Nat) : Option (Nat × Unit) :=
  if isLineStart code p then
    if modVarKeywords.any (fun kw => occursIn kw (lineSeg code p)) then none
    else
      match firstIn (fun u => modVarTailAt code u) p (lineEndFrom code p - p + 1) with
      | some stop => some (stop, ())
      | none => none
  else none

/-- Captures of a type-definition match. -/
structure TypeCaps where
  contentStart : Nat
  contentEnd : Nat
  name : String
  pub : Bool
deriving DecidableEq, Repr

/-- The group-2 core `type\s+(\w+)\s+([^;{]+(?:;|\{[^}]*\}))` at `u`, plus the
outer optional `;?`.  `[^;{]+` is stopped by the first `';'` or `'{'` (call it
`m1`, needed at distance at least 2 with a leading space so that `\s+` and
`[^;{]+` both get a character — `\s+` can donate all but one).  A `'{'`
alternative runs `[^}]*` to the first `'}'`.  Returns
`(stop, contentEnd, name)`. -/
def typeCore (code : Code) (u : Nat) : Option (Nat × Nat × String) := do
  let i ← litAt code u kwType
  let i2 ← plusRun isSpaceJS code i
  let i3 ← plusRun isWordCh code i2
  let nm := sl code i2 i3
  let s0 ← charAt? code i3
  if isSpaceJS s0 then
    let m1 ← findFrom (fun ch => ch == ';' || ch == '{') code i3
    if i3 + 2 ≤ m1 then
      match charAt? code m1 with
      | some ';' =>
        let ce := m1 + 1
        some (if charAt? code ce == some ';' then ce + 1 else ce, ce, nm)
      | some '{' => do
        let m2 ← findCh code (m1 + 1) '}'
        let ce := m2 + 1
        some (if charAt? code ce == some ';' then ce + 1 else ce, ce, nm)
      | _ => none
    else none
  else none

/-- Match `/(public\s+)?(type\s+(\w+)\s+([^;{]+(?:;|\{[^}]*\}));?)/` at `p`.
The optional `public\s+` group is tried greedily first; if its core fails the
bare core at `p` is tried (it can only fail there, since `p` starts with
`public`, not `type`). -/
def typeTry (code : Code) (p : Nat) : Option (Nat × TypeCaps) :=
  match (do
      let g ← litAt code p kwPublic
      let v ← plusRun isSpaceJS code g
      (typeCore code v).map (fun r => (v, r))) with
  | some r => some (r.2.1, ⟨r.1, r.2.2.1, r.2.2.2, true⟩)
  | none => (typeCore code p).map (fun r => (r.1, ⟨p, r.2.1, r.2.2, false⟩))

/-- Captures of a standalone-function match. -/
structure FunCaps where
  g1start : Nat
  name : String
  params : String
  retCap : Option String
  ob : Nat
deriving DecidableEq, Repr

/-- The optional returns group `(?:\s+returns\s*([^\{]+))?\s*\{` of the
function pattern, starting right after the `')'`.  With the group: at least
one space, then `returns` immediately after the maximal space run (space
cannot be donated to a literal), then the capture runs to the first `'{'`
(`m3`, needed strictly beyond the end of `returns`); the greedy inner `\s*`
keeps all spaces unless the capture would be empty, in which case it donates
one.  Without the group: spaces straight to a `'{'`.  The two cases cannot
both apply (after the maximal space run the next character is either
`returns...` or `'{'`).  Returns `(openBrace, capture)`. -/
def funRetPart (code : Code) (i6 : Nat) : Option (Nat × Option String) :=
  match (do
      let j ← plusRun isSpaceJS code i6
      let z0 ← litAt code j kwReturns
      let m3 ← findCh code z0 '{'
      if z0 < m3 then
        let s := runEnd isSpaceJS code z0
        some (m3, some (if s < m3 then sl code s m3 else sl code (m3 - 1) m3))
      else none) with
  | some r => some r
  | none =>
    let s := runEnd isSpaceJS code i6
    if charAt? code s == some '{' then some (s, (none : Option String)) else none

/-- The group-1 core
`(?:public\s+)?function\s+(\w+)\s*\(([^)]*)\)(?:\s+returns\s*([^\{]+))?\s*\{BODY\}`
at offset `u` (the capture-1 start). -/
def funCoreAt (code : Code) (u : Nat) : Option (Nat × FunCaps) :=
  let core (w : Nat) : Option (Nat × String × String × Option String × Nat) := do
    let i ← litAt code w kwFunction
    let i2 ← plusRun isSpaceJS code i
    let i3 ← plusRun isWordCh code i2
    let i4 := runEnd isSpaceJS code i3
    let i5 ← litAt code i4 [ '(' ]
    let q1 ← findCh code i5 ')'
    let (ob, ret) ← funRetPart code (q1 + 1)
    let e ← parseBal2 code ob
    some (e, sl code i2 i3, sl code i5 q1, ret, ob)
  match (do
      let g ← litAt code u kwPublic
      let v ← plusRun isSpaceJS code g
      core v) with
  | some r => some (r.1, ⟨u, r.2.1, r.2.2.1, r.2.2.2.1, r.2.2.2.2⟩)
  | none => (core u).map (fun r => (r.1, ⟨u, r.2.1, r.2.2.1, r.2.2.2.1, r.2.2.2.2⟩))

/-- Match the standalone-function pattern
`/^(?!.*resource).*?((?:public\s+)?function\s+(\w+)\s*\(([^)]*)\)(?:\s+returns\s*([^\{]+))?\s*\{BODY\})/gm`
at `p`: line-start anchor, lookahead rejecting a `resource` on the line, lazy
`.*?` scanning in-line offsets left to right for the first full group-1
match.  `match.index` is the line start `p`; the emitted content is group 1. -/
def functionTry (code : Code) (p : Nat) : Option (Nat × FunCaps) :=
  if isLineStart code p then
    if occursIn kwResource (lineSeg code p) then none
    else firstIn (fun u => funCoreAt code u) p (lineEndFrom code p - p + 1)
  else none

/-- The back-scan heuristic of the source: the function match at `p` is
skipped when `beforeFunction.lastIndexOf("service")` is strictly greater than
`beforeFunction.lastIndexOf("}")` (with `-1` for absence, so an absent
`service` never skips and an absent `'}'` skips whenever `service` occurs). -/
def skipFun (code : Code) (p : Nat) : Bool :=
  match lastOccur code p kwService, lastOccur code p [ '}' ] with
  | some s, some b => decide (b < s)
  | some _, none => true
  | none, _ => false

/-- Captures of a service match. -/
structure SvcCaps where
  path : String
  listener : Option String
  bodyStart : Nat
  bodyEnd : Nat
deriving DecidableEq, Repr

/-- The optional listener group `(?:\s+on\s+([^{]+))?\s*\{` after the service
path, mirroring `funRetPart`: `on` must sit right after the maximal space run
and the capture runs to the first `'{'` (at distance at least 2 after `on`,
a leading space plus at least one captured character, spaces donatable).
Returns `(openBrace, rawCapture)`. -/
def svcOnPart (code : Code) (pend : Nat) : Option (Nat × Option String) :=
  match (do
      let j ← plusRun isSpaceJS code pend
      let z0 ← litAt code j kwOn
      let c0 ← charAt? code z0
      if isSpaceJS c0 then
        let m ← findCh code z0 '{'
        if z0 + 2 ≤ m then
          let s := runEnd isSpaceJS code z0
          some (m, some (if s < m then sl code s m else sl code (m - 1) m))
        else none
      else none) with
  | some r => some r
  | none =>
    let s := runEnd isSpaceJS code pend
    if charAt? code s == some '{' then some (s, (none : Option String)) else none

/-- Match the service pattern
`/service\s+(\/[\w\d_/\-]*|\w+)(?:\s+on\s+([^{]+))?\s*\{BODY\}/g` at `p`.
The path alternation takes `\/[\w\d_/\-]*` when a `'/'` follows the spaces
(possibly just the slash) and `\w+` otherwise. -/
def serviceTry (code : Code) (p : Nat) : Option (Nat × SvcCaps) := do
  let i ← litAt code p kwService
  let i2 ← plusRun isSpaceJS code i
  let pend ← (match charAt? code i2 with
    | some '/' => some (runEnd isPathCh code (i2 + 1))
    | _ => plusRun isWordCh code i2)
  let (ob, rawListener) ← svcOnPart code pend
  let e ← parseBal2 code ob
  some (e, ⟨sl code i2 pend, rawListener, ob + 1, e - 1⟩)

/-- Captures of a resource match (offsets relative to the service body). -/
structure ResCaps where
  method : String
  pathPart : String
  params : String
  retCap : Option String
  bodyStart : Nat
  bodyEnd : Nat
deriving DecidableEq, Repr

/-- The optional returns group `(?:\s*returns\s*([^\{]+))?\s*\{` of the
resource pattern: as `funRetPart` but with `\s*` (zero or more spaces)
before `returns`. -/
def resRetPart (body : Code) (i9 : Nat) : Option (Nat × Option String) :=
  match (do
      let j := runEnd isSpaceJS body i9
      let z0 ← litAt body j kwReturns
      let m3 ← findCh body z0 '{'
      if z0 < m3 then
        let s := runEnd isSpaceJS body z0
        some (m3, some (if s < m3 then sl body s m3 else sl body (m3 - 1) m3))
      else none) with
  | some r => some r
  | none =>
    let s := runEnd isSpaceJS body i9
    if charAt? body s == some '{' then some (s, (none : Option String)) else none

/-- Match the resource pattern
`/resource\s+function\s+(\w+)\s+([^\s(]*)\s*\(([^)]*)\)(?:\s*returns\s*([^\{]+))?\s*\{BODY\}/g`
at `q` of the service body (the source scans `serviceBody`, so indices are
relative to it).  Note the mandatory `\s+` between method and path and the
possibly-empty path `[^\s(]*`. -/
def resourceTry (body : Code) (q : Nat) : Option (Nat × ResCaps) := do
  let i ← litAt body q kwResource
  let i2 ← plusRun isSpaceJS body i
  let i3 ← litAt body i2 kwFunction
  let i4 ← plusRun isSpaceJS body i3
  let i5 ← plusRun isWordCh body i4
  let i6 ← plusRun isSpaceJS body i5
  let p7 := runEnd (fun ch => !(isSpaceJS ch) && ch != '(') body i6
  let i8 := runEnd isSpaceJS body p7
  let i9 ← litAt body i8 [ '(' ]
  let q1 ← findCh body i9 ')'
  let (ob, ret) ← resRetPart body (q1 + 1)
  let e ← parseBal2 body ob
  some (e, ⟨sl body i4 i5, sl body i6 p7, sl body i9 q1, ret, ob + 1, e - 1⟩)

/-- Captures of a class match. -/
structure ClassCaps where
  name : String
deriving DecidableEq, Repr

/-- The core `class\s+(\w+)(?:\s*\{[^}]*\}|\s*;)` at `u`: after the name and
the maximal space run the next character picks the alternative — `'{'` runs
`[^}]*` to the first `'}'`, `';'` closes a forward declaration. -/
def classCore (code : Code) (u : Nat) : Option (Nat × String) := do
  let i ← litAt code u kwClass
  let i2 ← plusRun isSpaceJS code i
  let i3 ← plusRun isWordCh code i2
  let nm := sl code i2 i3
  let s := runEnd isSpaceJS code i3
  match charAt? code s with
  | some '{' => (findCh code (s + 1) '}').map (fun m2 => (m2 + 1, nm))
  | some ';' => some (s + 1, nm)
  | _ => none

/-- Match `/((?:public\s+)?class\s+(\w+)(?:\s*\{[^}]*\}|\s*;))/g` at `p`. -/
def classTry (code : Code) (p : Nat) : Option (Nat × ClassCaps) :=
  match (do
      let g ← litAt code p kwPublic
      let v ← plusRun isSpaceJS code g
      classCore code v) with
  | some r => some (r.1, ⟨r.2⟩)
  | none => (classCore code p).map (fun r => (r.1, ⟨r.2⟩))

/-- Match `/^(final\s+[\w:]+\s+(\w+)\s*=\s*[^;]+;)/gm` at `p` (line starts
only).  Returns the captured name directly (group 2). -/
def constantTry (code : Code) (p : Nat) : Option (Nat × String) :=
  if isLineStart code p then do
    let i ← litAt code p kwFinal
    let j ← plusRun isSpaceJS code i
    let (stop, b, c) ← declTail code j
    some (stop, sl code b c)
  else none

/-- All matches of each classifier, in scan order. -/
def impMatches (code : Code) : List (Mtc Unit) :=
  scanMatches (fun p => impTry code p) code.length

def configMatches (code : Code) : List (Mtc Unit) :=
  scanMatches (fun p => configTry code p) code.length

def modVarMatches (code : Code) : List (Mtc Unit) :=
  scanMatches (fun p => modVarTry code p) code.length

def typeMatches (code : Code) : List (Mtc TypeCaps) :=
  scanMatches (fun p => typeTry code p) code.length

def functionMatches (code : Code) : List (Mtc FunCaps) :=
  scanMatches (fun p => functionTry code p) code.length

def serviceMatches (code : Code) : List (Mtc SvcCaps) :=
  scanMatches (fun p => serviceTry code p) code.length

def classMatches (code : Code) : List (Mtc ClassCaps) :=
  scanMatches (fun p => classTry code p) code.length

def constMatches (code : Code) : List (Mtc String) :=
  scanMatches (fun p => constantTry code p) code.length

/-- The service body substring handed to the resource scan. -/
def svcBody (code : Code) (m : Mtc SvcCaps) : Code :=
  (code.drop m.caps.bodyStart).take (m.caps.bodyEnd - m.caps.bodyStart)

def resourceMatches (body : Code) : List (Mtc ResCaps) :=
  scanMatches (fun q => resourceTry body q) body.length

/-- Build the import chunk (step 1 of `chunkBallerinaCode`). -/
def mkImp (code : Code) (fp : String) (m : Mtc Unit) : Chunk :=
  { content := sl code m.idx m.stop
    metadata := buildMetadata { type := "import", file := basename fp }
                  code m.idx (m.stop - m.idx) }

/-- Build a configurable-variable chunk (step 2). -/
def mkConfig (code : Code) (fp : String) (m : Mtc Unit) : Chunk :=
  { content := sl code m.idx m.stop
    metadata := buildMetadata
      { type := "configurable_variable"
        name := configName ((code.drop m.idx).take (m.stop - m.idx))
        file := basename fp }
      code m.idx (m.stop - m.idx) }

/-- Build a module-variable chunk (step 3); the content is trimmed. -/
def mkModVar (code : Code) (fp : String) (m : Mtc Unit) : Chunk :=
  { content := trimJS (sl code m.idx m.stop)
    metadata := buildMetadata
      { type := "module_variable"
        name := modVarName ((code.drop m.idx).take (m.stop - m.idx))
        file := basename fp }
      code m.idx (m.stop - m.idx) }

/-- Build a type-definition chunk (step 4); the content is group 2. -/
def mkType (code : Code) (fp : String) (m : Mtc TypeCaps) : Chunk :=
  { content := sl code m.caps.contentStart m.caps.contentEnd
    metadata := buildMetadata
      { type := "type_definition"
        name := some m.caps.name
        file := basename fp
        visibility := some (if m.caps.pub then "public" else "private") }
      code m.idx (m.stop - m.idx) }

/-- Build a standalone-function chunk (step 5); the content is group 1 and
visibility tests `match[1].includes("public")`. -/
def mkFunction (code : Code) (fp : String) (m : Mtc FunCaps) : Chunk :=
  let contentL := (code.drop m.caps.g1start).take (m.stop - m.caps.g1start)
  let rt := trimJS (m.caps.retCap.getD "")
  { content := String.mk contentL
    metadata := buildMetadata
      { type := "function"
        name := some m.caps.name
        file := basename fp
        parameters := some (splitParams m.caps.params)
        returnType := some (if rt = "" then "void" else rt)
        visibility := some (if occursIn kwPublic contentL then "public" else "private") }
      code m.idx (m.stop - m.idx) }

/-- Build a service chunk (step 6, service part); the listener is trimmed and
an all-whitespace listener (trimmed to the empty, falsy string) drops the
`on`-part of the content while still landing in the metadata. -/
def mkService (code : Code) (fp : String) (m : Mtc SvcCaps) : Chunk :=
  let listener := m.caps.listener.map trimJS
  let nm := match m.caps.path.toList with
    | '/' :: rest => String.mk rest
    | _ => m.caps.path
  { content := "service " ++ m.caps.path ++
      (match listener with
       | some l => if l = "" then "" else " on " ++ l
       | none => "")
    metadata := buildMetadata
      { type := "service"
        name := some (if nm = "" then "unnamed_service" else nm)
        file := basename fp
        path := some m.caps.path
        listener := listener }
      code m.idx (m.stop - m.idx) }

/-- Build a resource chunk (step 6, resource part).  The source passes the
resource match — whose index is relative to the service body — together with
the whole file's text to `buildMetadata`, so the position is computed at the
relative offset; this quirk is reproduced as-is. -/
def mkResource (code : Code) (fp : String) (sm : Mtc SvcCaps) (m : Mtc ResCaps) : Chunk :=
  let body := svcBody code sm
  let listener := sm.caps.listener.map trimJS
  let rt := trimJS (m.caps.retCap.getD "")
  let bodyStr := sl body m.caps.bodyStart m.caps.bodyEnd
  { content := "resource function " ++ m.caps.method ++ " " ++ m.caps.pathPart ++
      "(" ++ m.caps.params ++ ")" ++
      (if rt = "" then "" else " returns " ++ rt) ++
      " \x7b\n" ++ trimJS bodyStr ++ "\n\x7d"
    metadata := buildMetadata
      { type := "resource"
        name := some (trimJS (m.caps.method ++ " " ++ m.caps.pathPart))
        file := basename fp
        servicePath := some sm.caps.path
        serviceListener := listener
        httpMethod := some m.caps.method
        resourcePath := some m.caps.pathPart
        fullPath := some (sm.caps.path ++
          (match m.caps.pathPart.toList with
           | '/' :: _ => m.caps.pathPart
           | _ => "/" ++ m.caps.pathPart))
        parameters := some (splitParams m.caps.params)
        returnType := some (if rt = "" then "void" else rt) }
      code m.idx (m.stop - m.idx) }

/-- Build a class chunk (step 7); group 1 is the whole match. -/
def mkClass (code : Code) (fp : String) (m : Mtc ClassCaps) : Chunk :=
  let contentL := (code.drop m.idx).take (m.stop - m.idx)
  { content := String.mk contentL
    metadata := buildMetadata
      { type := "class"
        name := some m.caps.name
        file := basename fp
        visibility := some (if occursIn kwPublic contentL then "public" else "private") }
      code m.idx (m.stop - m.idx) }

/-- Build a constant chunk (step 8). -/
def mkConst (code : Code) (fp : String) (m : Mtc String) : Chunk :=
  { content := sl code m.idx m.stop
    metadata := buildMetadata
      { type := "constant", name := some m.caps, file := basename fp }
      code m.idx (m.stop - m.idx) }

/-- `chunkBallerinaCode` of `src/chunker.ts`: the eight classifier loops in
source order, pushing onto one list.  Function matches found inside an open
service block per the back-scan heuristic are skipped (the regex still
consumed them, so skipping does not change later scan positions); each
service pushes its chunk and then the resource chunks scanned over its body. -/
def chunkBallerinaCode (code : Code) (filePath : String) : List Chunk :=
  (impMatches code).map (mkImp code filePath) ++
  (configMatches code).map (mkConfig code filePath) ++
  (modVarMatches code).map (mkModVar code filePath) ++
  (typeMatches code).map (mkType code filePath) ++
  ((functionMatches code).filter (fun m => !(skipFun code m.idx))).map
      (mkFunction code filePath) ++
  (serviceMatches code).flatMap (fun sm =>
      mkService code filePath sm ::
        (resourceMatches (svcBody code sm)).map (mkResource code filePath sm)) ++
  (classMatches code).map (mkClass code filePath) ++
  (constMatches code).map (mkConst code filePath)

/-- Lexicographic order on (line, column) pairs ("not lexically before"). -/
def lexLE (p q : Nat × Int) : Prop :=
  p.1 < q.1 ∨ (p.1 = q.1 ∧ p.2 ≤ q.2)

instance (p q : Nat × Int) : Decidable (lexLE p q) := by
  unfold lexLE; exact inferInstance

/-- The (line, column) pair the Position Tracker computes for an offset. -/
def posPair (code : Code) (i : Nat) : Nat × Int :=
  (getLineNumber code i, getColumnNumber code i)

/-- Rank of a chunk type in the order the eight classifier loops run
(services and their resources form one interleaved block). -/
def kindRank : String → Nat := fun t =>
  if t = "import" then 0
  else if t = "configurable_variable" then 1
  else if t = "module_variable" then 2
  else if t = "type_definition" then 3
  else if t = "function" then 4
  else if t = "service" then 5
  else if t = "resource" then 5
  else if t = "class" then 6
  else 7

/-- Rank of a chunk type in the claim's seven-entry kind order, where both
variable classifiers are the single kind "variables" (and services/resources
one kind), following the spec's words. -/
def specKindRank7 : String → Nat := fun t =>
  if t = "import" then 0
  else if t = "configurable_variable" then 1
  else if t = "module_variable" then 1
  else if t = "type_definition" then 2
  else if t = "function" then 3
  else if t = "service" then 4
  else if t = "resource" then 4
  else if t = "class" then 5
  else 6

/-- The ordering the claim asserts over the emitted sequence: first by the
seven-entry kind order, and within a kind by the source position the chunk
records for its match.  Formalises the spec's emission-order contract. -/
def claimOrder7 (a b : Chunk) : Prop :=
  specKindRank7 a.metadata.type < specKindRank7 b.metadata.type ∨
  (specKindRank7 a.metadata.type = specKindRank7 b.metadata.type ∧
    lexLE (a.metadata.position.start.line, a.metadata.position.start.column)
          (b.metadata.position.start.line, b.metadata.position.start.column))

instance (a b : Chunk) : Decidable (claimOrder7 a b) := by
  unfold claimOrder7; exact inferInstance

/-- Absolute source offsets of the service/resource block in emission order:
each service's match start followed by the file-absolute starts of its
resources (`bodyStart` plus the body-relative match index). -/
def svcResOffsets (code : Code) : List Nat :=
  (serviceMatches code).flatMap (fun sm =>
    sm.idx :: (resourceMatches (svcBody code sm)).map
      (fun r => sm.caps.bodyStart + r.idx))

/-- Modelled from the spec: the id- and kind-bearing chunk record of §3 that
the Size Bounder of §4.5 operates on; no size-bounding code exists under
`src/`, only the spec describes it. -/
structure SChunk where
  id : String
  kind : String
  content : String
  part : Option Nat := none
  totalParts : Option Nat := none
deriving DecidableEq, Repr

/-- Modelled from the spec: split into consecutive, non-overlapping slices of
at most `n` characters, preserving order (fuel = list length suffices since
every step removes at least one character when `1 ≤ n`). -/
def chunksOfAux (n : Nat) : Nat → List Char → List (List Char)
  | 0, s => [s]
  | fuel + 1, s =>
    if s.length ≤ n then [s] else s.take n :: chunksOfAux n fuel (s.drop n)

/-- Modelled from the spec: the slicing step of the Size Bounder. -/
def chunksOf (n : Nat) (s : List Char) : List (List Char) :=
  chunksOfAux n s.length s

/-- Modelled from the spec (§4.5 Size Bounder, absent from `src/`):
`bound(chunk, maxLength)` returns the chunk unchanged when its content fits,
else one chunk per slice, each keeping `id` and `kind` and carrying a 1-based
`part` index and the total part count. -/
def boundChunk (c : SChunk) (maxLength : Nat) : List SChunk :=
  if c.content.length ≤ maxLength then [c]
  else
    let parts := chunksOf maxLength c.content.toList
    parts.enum.map (fun pr =>
      { c with
        content := String.mk pr.2
        part := some (pr.1 + 1)
        totalParts := some parts.length })

/-- Input of the C1 counterexample: a service whose body holds a resource
(whose braces close before the next member) followed by a plain function. -/
def exC1 : Code := String.toList
  "service /a on l \x7b\n resource function get x() returns int \x7b return 1; \x7d\n function helper() returns int \x7b return 2; \x7d\n\x7d\n"

/-- Input with exactly one function construct with a non-empty body. -/
def exC2 : Code := String.toList
  "function add(int a, int b) returns int \x7b\n  return a + b;\n\x7d"

/-- The service example input of the spec's end-to-end property. -/
def exC3 : Code := String.toList
  "service /books on new Listener(8080) \x7b resource function get items() returns int \x7b return 1; \x7d \x7d"

/-- Input of the C5 counterexample: a module variable on line 1 textually
before a configurable variable on line 2. -/
def exC5 : Code := String.toList "int x = 1;\nconfigurable int y = 2;"

/-- Input of the C9 counterexample: one `final` declaration line. -/
def exC9 : Code := String.toList "final int x = 1;"

/-- A single import statement. -/
def exImp : Code := String.toList "import ballerina/http;"

/-- Input of the C1 witness: a plain standalone function. -/
def exFn : Code := String.toList "function f() \x7b \x7d"

/-- A chunk placeholder for `headD`. -/
def dummyChunk : Chunk := ⟨"", { type := "" }⟩

/-- The single function match of `exC2` (its head, for the C2 witness). -/
def c2match : Mtc FunCaps :=
  (functionMatches exC2).headD ⟨0, 0, ⟨0, "", "", none, 0⟩⟩

/-- The function chunk of `exFn` (for the C1 witness). -/
def c1chunk : Chunk := (chunkBallerinaCode exFn "w.bal").headD dummyChunk

/-- The import chunk of `exImp` (for the C10 witness). -/
def c10chunk : Chunk := (chunkBallerinaCode exImp "i.bal").headD dummyChunk

/-- The module-variable chunk of `exC9` (for the C9 witness). -/
def c9chunk : Chunk := (chunkBallerinaCode exC9 "c.bal").headD dummyChunk

/-- A 26-character content at maxLength 7 (26 = 3 * 7 + 5, for the C8 witness). -/
def c8chunk : SChunk :=
  { id := "file.bal:function:f:1", kind := "function_body",
    content := "abcdefghijklmnopqrstuvwxyz" }

/-! ## Primitive lemmas -/

theorem runLen_le (P : Char → Bool) : ∀ l : List Char, runLen P l ≤ l.length := by
  intro l
  induction l with
  | nil => simp [runLen]
  | cons c t ih => simp only [runLen, List.length_cons]; split <;> omega

theorem charAt?_lt {code : Code} {i : Nat} {c : Char}
    (h : charAt? code i = some c) : i < code.length := by
  unfold charAt? at h
  exact (List.get?_eq_some.mp h).1

theorem litAt_some {code : Code} {i : Nat} {lit : List Char} {j : Nat}
    (h : litAt code i lit = some j) :
    j = i + lit.length ∧ lit.length ≤ code.length - i := by
  unfold litAt at h
  split at h
  · next hat =>
    cases h
    refine ⟨rfl, ?_⟩
    unfold isAt at hat
    have hlen := congrArg List.length (eq_of_beq hat)
    simp only [List.length_take, List.length_drop] at hlen
    omega
  · cases h

theorem plusRun_some {P : Char → Bool} {code : Code} {i j : Nat}
    (h : plusRun P code i = some j) : i < j ∧ j ≤ code.length := by
  unfold plusRun at h
  split at h
  · next hlt =>
    cases h
    have hb := runLen_le P (code.drop i)
    rw [List.length_drop] at hb
    unfold runEnd at hlt ⊢
    omega
  · cases h

theorem runEnd_le_length {P : Char → Bool} {code : Code} {i : Nat}
    (hi : i ≤ code.length) : runEnd P code i ≤ code.length := by
  have hb := runLen_le P (code.drop i)
  rw [List.length_drop] at hb
  unfold runEnd
  omega

theorem runEnd_ge (P : Char → Bool) (code : Code) (i : Nat) : i ≤ runEnd P code i := by
  unfold runEnd; omega

theorem findIdxL_lt {P : Char → Bool} : ∀ {l : List Char} {j : Nat},
    findIdxL P l = some j → j < l.length := by
  intro l
  induction l with
  | nil => intro j h; cases h
  | cons c t ih =>
    intro j h
    unfold findIdxL at h
    split at h
    · cases h; simp
    · obtain ⟨j2, hj2, rfl⟩ := Option.map_eq_some'.mp h
      have := ih hj2
      simp only [List.length_cons]
      omega

theorem findFrom_some {P : Char → Bool} {code : Code} {i q : Nat}
    (h : findFrom P code i = some q) : i ≤ q ∧ q < code.length := by
  unfold findFrom at h
  obtain ⟨j, hj, rfl⟩ := Option.map_eq_some'.mp h
  have := findIdxL_lt hj
  rw [List.length_drop] at this
  omega

theorem findCh_some {code : Code} {i q : Nat} {ch : Char}
    (h : findCh code i ch = some q) : i ≤ q ∧ q < code.length :=
  findFrom_some h

theorem lastIdxLe_le {code : Code} {ch : Char} : ∀ {f k : Nat},
    lastIdxLe code ch f = some k → k ≤ f := by
  intro f
  induction f with
  | zero =>
    intro k h
    unfold lastIdxLe at h
    split at h
    · cases h; omega
    · cases h
  | succ f ih =>
    intro k h
    unfold lastIdxLe at h
    split at h
    · cases h; omega
    · exact Nat.le_succ_of_le (ih h)

theorem braceScan_some : ∀ {l : List Char} {d k : Nat},
    braceScan l d = some k → 1 ≤ k ∧ k ≤ l.length := by
  intro l
  induction l with
  | nil => intro d k h; cases h
  | cons c t ih =>
    intro d k h
    unfold braceScan at h
    split at h
    · split at h
      · cases h; simp
      · obtain ⟨k2, hk2, rfl⟩ := Option.map_eq_some'.mp h
        have := ih hk2
        simp only [List.length_cons]
        omega
    · split at h
      · split at h
        · cases h
        · obtain ⟨k2, hk2, rfl⟩ := Option.map_eq_some'.mp h
          have := ih hk2
          simp only [List.length_cons]
          omega
      · obtain ⟨k2, hk2, rfl⟩ := Option.map_eq_some'.mp h
        have := ih hk2
        simp only [List.length_cons]
        omega

theorem parseBal2_some {code : Code} {i e : Nat}
    (h : parseBal2 code i = some e) : i + 2 ≤ e ∧ e ≤ code.length := by
  unfold parseBal2 at h
  split at h
  · next hcur =>
    obtain ⟨k, hk, rfl⟩ := Option.map_eq_some'.mp h
    have hb := braceScan_some hk
    rw [List.length_drop] at hb
    have hcur2 : charAt? code i = some '\x7b' := by
      simpa using hcur
    have hlt : i < code.length := charAt?_lt hcur2
    omega
  · cases h

theorem firstIn_some {α : Type} {f : Nat → Option α} : ∀ {fuel u : Nat} {r : α},
    firstIn f u fuel = some r → ∃ v, u ≤ v ∧ f v = some r := by
  intro fuel
  induction fuel with
  | zero => intro u r h; cases h
  | succ n ih =>
    intro u r h
    unfold firstIn at h
    split at h
    · next heq => cases h; exact ⟨u, Nat.le_refl u, heq⟩
    · obtain ⟨v, hv, hfv⟩ := ih h
      exact ⟨v, by omega, hfv⟩

/-! ## Scanner lemmas -/

theorem scanAux_mem {α : Type} {tryAt : Nat → Option (Nat × α)} :
    ∀ {fuel pos : Nat} {m : Mtc α}, m ∈ scanAux tryAt fuel pos →
      tryAt m.idx = some (m.stop, m.caps) ∧ pos ≤ m.idx := by
  intro fuel
  induction fuel with
  | zero => intro pos m h; cases h
  | succ f ih =>
    intro pos m h
    unfold scanAux at h
    split at h
    · rename_i stp a heq
      cases h with
      | head => exact ⟨heq, Nat.le_refl _⟩
      | tail _ hmem =>
        obtain ⟨h1, h2⟩ := ih hmem
        refine ⟨h1, ?_⟩
        split at h2 <;> omega
    · obtain ⟨h1, h2⟩ := ih h
      exact ⟨h1, by omega⟩

theorem scanAux_pairwise {α : Type} {tryAt : Nat → Option (Nat × α)}
    (hadv : ∀ p s a, tryAt p = some (s, a) → p < s) :
    ∀ (fuel pos : Nat),
      List.Pairwise (fun m1 m2 : Mtc α => m1.stop ≤ m2.idx) (scanAux tryAt fuel pos) := by
  intro fuel
  induction fuel with
  | zero => intro pos; simp [scanAux]
  | succ f ih =>
    intro pos
    unfold scanAux
    split
    · next stp a heq =>
      refine List.Pairwise.cons ?_ (ih _)
      intro m hm
      show stp ≤ m.idx
      have h2 := (scanAux_mem hm).2
      have h3 := hadv _ _ _ heq
      split at h2 <;> omega
    · exact ih _

theorem scanMatches_mem {α : Type} {tryAt : Nat → Option (Nat × α)} {len : Nat}
    {m : Mtc α} (h : m ∈ scanMatches tryAt len) :
    tryAt m.idx = some (m.stop, m.caps) :=
  (scanAux_mem h).1

theorem scanMatches_pairwise {α : Type} {tryAt : Nat → Option (Nat × α)} {len : Nat}
    (hadv : ∀ p s a, tryAt p = some (s, a) → p < s) :
    List.Pairwise (fun m1 m2 : Mtc α => m1.stop ≤ m2.idx) (scanMatches tryAt len) :=
  scanAux_pairwise hadv _ _

/-! ## Per-classifier advancement lemmas -/

theorem declTail_some {code : Code} {w stop b c : Nat}
    (h : declTail code w = some (stop, b, c)) :
    w < stop ∧ stop ≤ code.length := by
  simp only [declTail, bind, Option.bind_eq_some] at h
  obtain ⟨a, ha, b2, hb, c2, hc, e, he, q, hq, h⟩ := h
  have h1 := plusRun_some ha
  have h2 := plusRun_some hb
  have h3 := plusRun_some hc
  have h4 := litAt_some he
  have h5 := findCh_some hq
  have h6 := runEnd_ge isSpaceJS code c2
  split at h
  · simp only [Option.some.injEq, Prod.mk.injEq] at h
    obtain ⟨h7, h8, h9⟩ := h
    omega
  · cases h

theorem impTry_some {code : Code} {p s : Nat} {u : Unit}
    (h : impTry code p = some (s, u)) : p < s ∧ s ≤ code.length := by
  simp only [impTry, bind, Option.bind_eq_some] at h
  obtain ⟨i, hi, c0, hc0, h⟩ := h
  have h1 := litAt_some hi
  have hL : 0 < kwImport.length := by decide
  split at h
  · simp only [Option.bind_eq_some] at h
    obtain ⟨q, hq, h⟩ := h
    have h2 := findCh_some hq
    split at h
    · simp only [Option.some.injEq, Prod.mk.injEq] at h
      omega
    · cases h
  · cases h

theorem configTry_some {code : Code} {p s : Nat} {u : Unit}
    (h : configTry code p = some (s, u)) : p < s ∧ s ≤ code.length := by
  simp only [configTry, bind, Option.bind_eq_some] at h
  obtain ⟨i, hi, j, hj, ⟨st, b, c⟩, hd, h⟩ := h
  have h1 := litAt_some hi
  have hL : 0 < kwConfigurable.length := by decide
  have h2 := plusRun_some hj
  have h3 := declTail_some hd
  simp only [Option.some.injEq, Prod.mk.injEq] at h
  omega

theorem modVarTailAt_some {code : Code} {u stop : Nat}
    (h : modVarTailAt code u = some stop) : u < stop ∧ stop ≤ code.length := by
  unfold modVarTailAt at h
  split at h
  · rename_i r heq
    obtain ⟨st, b, c⟩ := r
    simp only [Option.some.injEq] at h
    subst h
    simp only [bind, Option.bind_eq_some] at heq
    obtain ⟨v, hv, v2, hv2, hd⟩ := heq
    have h1 := litAt_some hv
    have h2 := plusRun_some hv2
    have h3 := declTail_some hd
    exact ⟨by omega, h3.2⟩
  · obtain ⟨⟨st, b, c⟩, hd, rfl⟩ := Option.map_eq_some'.mp h
    exact declTail_some hd

theorem modVarTry_some {code : Code} {p s : Nat} {u : Unit}
    (h : modVarTry code p = some (s, u)) : p < s ∧ s ≤ code.length := by
  unfold modVarTry at h
  split at h
  · split at h
    · cases h
    · split at h
      · rename_i stop heq
        simp only [Option.some.injEq, Prod.mk.injEq] at h
        obtain ⟨v, hv, htail⟩ := firstIn_some heq
        have h1 := modVarTailAt_some htail
        omega
      · cases h
  · cases h

theorem typeCore_some {code : Code} {u stop ce : Nat} {nm : String}
    (h : typeCore code u = some (stop, ce, nm)) : u < stop ∧ stop ≤ code.length := by
  simp only [typeCore, bind, Option.bind_eq_some] at h
  obtain ⟨i, hi, i2, hi2, i3, hi3, s0, hs0, h⟩ := h
  have h1 := litAt_some hi
  have hL : 0 < kwType.length := by decide
  have h2 := plusRun_some hi2
  have h3 := plusRun_some hi3
  split at h
  · simp only [Option.bind_eq_some] at h
    obtain ⟨m1, hm1, h⟩ := h
    have h4 := findFrom_some hm1
    split at h
    · split at h
      · simp only [Option.some.injEq, Prod.mk.injEq] at h
        obtain ⟨hst, hce, -⟩ := h
        subst hce
        split at hst
        · rename_i hsemi
          have h5 := charAt?_lt (eq_of_beq hsemi)
          omega
        · omega
      · simp only [Option.bind_eq_some] at h
        obtain ⟨m2, hm2, h⟩ := h
        have h5 := findCh_some hm2
        simp only [Option.some.injEq, Prod.mk.injEq] at h
        obtain ⟨hst, hce, -⟩ := h
        subst hce
        split at hst
        · rename_i hsemi
          have h6 := charAt?_lt (eq_of_beq hsemi)
          omega
        · omega
      · cases h
    · cases h
  · cases h

theorem typeTry_some {code : Code} {p s : Nat} {caps : TypeCaps}
    (h : typeTry code p = some (s, caps)) : p < s ∧ s ≤ code.length := by
  unfold typeTry at h
  split at h
  · rename_i r heq
    obtain ⟨v, stop, ce, nm⟩ := r
    simp only [Option.some.injEq, Prod.mk.injEq] at h
    obtain ⟨hs, -⟩ := h
    subst hs
    simp only [bind, Option.bind_eq_some] at heq
    obtain ⟨g, hg, v2, hv2, hmap⟩ := heq
    obtain ⟨⟨st2, ce2, nm2⟩, hcore, hveq⟩ := Option.map_eq_some'.mp hmap
    simp only [Prod.mk.injEq] at hveq
    obtain ⟨hva, hvb, -⟩ := hveq
    have h1 := litAt_some hg
    have hL : 0 < kwPublic.length := by decide
    have h2 := plusRun_some hv2
    have h3 := typeCore_some hcore
    omega
  · obtain ⟨⟨st2, ce2, nm2⟩, hcore, hmk⟩ := Option.map_eq_some'.mp h
    simp only [Prod.mk.injEq] at hmk
    obtain ⟨hs, -⟩ := hmk
    subst hs
    exact typeCore_some hcore

theorem funRetPart_some {code : Code} {i6 : Nat} {r : Nat × Option String}
    (h : funRetPart code i6 = some r) : i6 ≤ r.1 := by
  simp only [funRetPart] at h
  split at h
  · rename_i r2 heq
    simp only [Option.some.injEq] at h
    subst h
    simp only [bind, Option.bind_eq_some] at heq
    obtain ⟨j, hj, z0, hz0, m3, hm3, heq⟩ := heq
    have h1 := plusRun_some hj
    have h2 := litAt_some hz0
    have h3 := findCh_some hm3
    split at heq
    · simp only [Option.some.injEq] at heq
      subst heq
      show i6 ≤ m3
      omega
    · cases heq
  · split at h
    · simp only [Option.some.injEq] at h
      subst h
      show i6 ≤ runEnd isSpaceJS code i6
      exact runEnd_ge isSpaceJS code i6
    · cases h

theorem funCoreAt_some {code : Code} {u e : Nat} {caps : FunCaps}
    (h : funCoreAt code u = some (e, caps)) : u < e ∧ e ≤ code.length := by
  simp only [funCoreAt] at h
  split at h
  · rename_i r heq
    obtain ⟨e2, nm, ps, ret, ob⟩ := r
    simp only [Option.some.injEq, Prod.mk.injEq] at h
    obtain ⟨hs, -⟩ := h
    subst hs
    simp only [bind, Option.bind_eq_some] at heq
    obtain ⟨g, hg, v, hv, i, hi, i2, hi2, i3, hi3, i5, hi5, q1, hq1,
      ⟨ob2, ret2⟩, hrp, e3, hpb, hfin⟩ := heq
    have h1 := litAt_some hg
    have hLp : 0 < kwPublic.length := by decide
    have h2 := plusRun_some hv
    have h3 := litAt_some hi
    have hLf : 0 < kwFunction.length := by decide
    have h4 := plusRun_some hi2
    have h5 := plusRun_some hi3
    have h6 := runEnd_ge isSpaceJS code i3
    have h7 := litAt_some hi5
    have h8 := findCh_some hq1
    have h9 := funRetPart_some hrp
    have h10 := parseBal2_some hpb
    simp only [Option.some.injEq, Prod.mk.injEq] at hfin
    simp only [] at h9
    omega
  · obtain ⟨⟨e2, nm, ps, ret, ob⟩, hcore, hmk⟩ := Option.map_eq_some'.mp h
    simp only [Prod.mk.injEq] at hmk
    obtain ⟨hs, -⟩ := hmk
    subst hs
    simp only [bind, Option.bind_eq_some] at hcore
    obtain ⟨i, hi, i2, hi2, i3, hi3, i5, hi5, q1, hq1,
      ⟨ob2, ret2⟩, hrp, e3, hpb, hfin⟩ := hcore
    have h3 := litAt_some hi
    have hLf : 0 < kwFunction.length := by decide
    have h4 := plusRun_some hi2
    have h5 := plusRun_some hi3
    have h6 := runEnd_ge isSpaceJS code i3
    have h7 := litAt_some hi5
    have h8 := findCh_some hq1
    have h9 := funRetPart_some hrp
    have h10 := parseBal2_some hpb
    simp only [Option.some.injEq, Prod.mk.injEq] at hfin
    simp only [] at h9
    omega

theorem functionTry_some {code : Code} {p s : Nat} {caps : FunCaps}
    (h : functionTry code p = some (s, caps)) : p < s ∧ s ≤ code.length := by
  unfold functionTry at h
  split at h
  · split at h
    · cases h
    · obtain ⟨v, hv, hcore⟩ := firstIn_some h
      have h1 := funCoreAt_some hcore
      omega
  · cases h

theorem svcOnPart_some {code : Code} {pend : Nat} {r : Nat × Option String}
    (h : svcOnPart code pend = some r) : pend ≤ r.1 := by
  simp only [svcOnPart] at h
  split at h
  · rename_i r2 heq
    simp only [Option.some.injEq] at h
    subst h
    simp only [bind, Option.bind_eq_some] at heq
    obtain ⟨j, hj, z0, hz0, c0, hc0, heq⟩ := heq
    have h1 := plusRun_some hj
    have h2 := litAt_some hz0
    split at heq
    · simp only [Option.bind_eq_some] at heq
      obtain ⟨m, hm, heq⟩ := heq
      have h3 := findCh_some hm
      split at heq
      · simp only [Option.some.injEq] at heq
        subst heq
        show pend ≤ m
        omega
      · cases heq
    · cases heq
  · split at h
    · simp only [Option.some.injEq] at h
      subst h
      show pend ≤ runEnd isSpaceJS code pend
      exact runEnd_ge isSpaceJS code pend
    · cases h

theorem serviceTry_some {code : Code} {p e : Nat} {caps : SvcCaps}
    (h : serviceTry code p = some (e, caps)) :
    p < e ∧ e ≤ code.length ∧ p < caps.bodyStart ∧
      caps.bodyStart ≤ caps.bodyEnd ∧ caps.bodyEnd < e := by
  simp only [serviceTry, bind, Option.bind_eq_some] at h
  obtain ⟨i, hi, i2, hi2, pend, hpend, ⟨ob, rawL⟩, hon, e2, hpb, hfin⟩ := h
  have h1 := litAt_some hi
  have hL : 0 < kwService.length := by decide
  have h2 := plusRun_some hi2
  have h3 : i2 ≤ pend := by
    split at hpend
    · simp only [Option.some.injEq] at hpend
      subst hpend
      have := runEnd_ge isPathCh code (i2 + 1)
      omega
    · exact Nat.le_of_lt (plusRun_some hpend).1
  have h4 := svcOnPart_some hon
  have h5 := parseBal2_some hpb
  simp only [Option.some.injEq, Prod.mk.injEq] at hfin
  obtain ⟨he, hcaps⟩ := hfin
  subst he
  subst hcaps
  simp only [] at h4 ⊢
  omega

theorem resRetPart_some {body : Code} {i9 : Nat} {r : Nat × Option String}
    (h : resRetPart body i9 = some r) : i9 ≤ r.1 := by
  simp only [resRetPart] at h
  split at h
  · rename_i r2 heq
    simp only [Option.some.injEq] at h
    subst h
    simp only [bind, Option.bind_eq_some] at heq
    obtain ⟨z0, hz0, m3, hm3, heq⟩ := heq
    have h2 := litAt_some hz0
    have h3 := findCh_some hm3
    have h4 := runEnd_ge isSpaceJS body i9
    split at heq
    · simp only [Option.some.injEq] at heq
      subst heq
      show i9 ≤ m3
      omega
    · cases heq
  · split at h
    · simp only [Option.some.injEq] at h
      subst h
      show i9 ≤ runEnd isSpaceJS body i9
      exact runEnd_ge isSpaceJS body i9
    · cases h

theorem resourceTry_some {body : Code} {q e : Nat} {caps : ResCaps}
    (h : resourceTry body q = some (e, caps)) : q < e ∧ e ≤ body.length := by
  simp only [resourceTry, bind, Option.bind_eq_some] at h
  obtain ⟨i, hi, i2, hi2, i3, hi3, i4, hi4, i5, hi5, i6, hi6, i9, hi9, q1, hq1,
    ⟨ob, ret⟩, hrp, e2, hpb, hfin⟩ := h
  have h1 := litAt_some hi
  have hL1 : 0 < kwResource.length := by decide
  have h2 := plusRun_some hi2
  have h3 := litAt_some hi3
  have hL2 : 0 < kwFunction.length := by decide
  have h4 := plusRun_some hi4
  have h5 := plusRun_some hi5
  have h6 := plusRun_some hi6
  have h7 := runEnd_ge (fun ch => !(isSpaceJS ch) && ch != '(') body i6
  have h8 := runEnd_ge isSpaceJS body (runEnd (fun ch => !(isSpaceJS ch) && ch != '(') body i6)
  have h9 := litAt_some hi9
  have h10 := findCh_some hq1
  have h11 := resRetPart_some hrp
  have h12 := parseBal2_some hpb
  simp only [Option.some.injEq, Prod.mk.injEq] at hfin
  simp only [] at h11
  omega

theorem classCore_some {code : Code} {u : Nat} {r : Nat × String}
    (h : classCore code u = some r) : u < r.1 ∧ r.1 ≤ code.length := by
  simp only [classCore, bind, Option.bind_eq_some] at h
  obtain ⟨i, hi, i2, hi2, i3, hi3, h⟩ := h
  have h1 := litAt_some hi
  have hL : 0 < kwClass.length := by decide
  have h2 := plusRun_some hi2
  have h3 := plusRun_some hi3
  have h4 := runEnd_ge isSpaceJS code i3
  split at h
  · rename_i ch hch
    obtain ⟨m2, hm2, hmk⟩ := Option.map_eq_some'.mp h
    have h5 := findCh_some hm2
    subst hmk
    simp only []
    omega
  · rename_i ch hch
    simp only [Option.some.injEq] at h
    subst h
    have h5 := charAt?_lt hch
    simp only []
    omega
  · cases h

theorem classTry_some {code : Code} {p s : Nat} {caps : ClassCaps}
    (h : classTry code p = some (s, caps)) : p < s ∧ s ≤ code.length := by
  unfold classTry at h
  split at h
  · rename_i r heq
    obtain ⟨st, nm⟩ := r
    simp only [Option.some.injEq, Prod.mk.injEq] at h
    obtain ⟨hs, -⟩ := h
    subst hs
    simp only [bind, Option.bind_eq_some] at heq
    obtain ⟨g, hg, v, hv, hcore⟩ := heq
    have h1 := litAt_some hg
    have hL : 0 < kwPublic.length := by decide
    have h2 := plusRun_some hv
    have h3 := classCore_some hcore
    simp only [] at h3
    omega
  · obtain ⟨⟨st, nm⟩, hcore, hmk⟩ := Option.map_eq_some'.mp h
    simp only [Prod.mk.injEq] at hmk
    obtain ⟨hs, -⟩ := hmk
    subst hs
    have h3 := classCore_some hcore
    simpa using h3

theorem constantTry_some {code : Code} {p s : Nat} {nm : String}
    (h : constantTry code p = some (s, nm)) : p < s ∧ s ≤ code.length := by
  unfold constantTry at h
  split at h
  · simp only [bind, Option.bind_eq_some] at h
    obtain ⟨i, hi, j, hj, ⟨st, b, c⟩, hd, hfin⟩ := h
    have h1 := litAt_some hi
    have hL : 0 < kwFinal.length := by decide
    have h2 := plusRun_some hj
    have h3 := declTail_some hd
    simp only [Option.some.injEq, Prod.mk.injEq] at hfin
    omega
  · cases h

/-! ## Position tracker lemmas -/

theorem segCount_eq_count : ∀ l : List Char, segCount l = l.count '\n' + 1 := by
  intro l
  induction l using segCount.induct with
  | case1 => simp [segCount]
  | case2 t ih => simp [segCount, ih, List.count_cons]
  | case3 t ih => simp [segCount, ih, List.count_cons]
  | case4 c t hc1 hc2 ih =>
    rw [segCount]
    · have hne : c ≠ '\n' := fun hh => hc2 hh
      rw [ih, List.count_cons]
      simp [hne]
    · exact hc1
    · exact hc2

theorem getLineNumber_eq (code : Code) (i : Nat) :
    getLineNumber code i = (code.take i).count '\n' + 1 :=
  segCount_eq_count _

theorem getLineNumber_pos (code : Code) (i : Nat) : 1 ≤ getLineNumber code i := by
  rw [getLineNumber_eq]; omega

theorem count_take_succ (code : Code) (b : Nat) :
    (code.take (b + 1)).count '\n'
      = (code.take b).count '\n' +
        (if charAt? code b == some '\n' then 1 else 0) := by
  rw [List.take_succ, List.count_append]
  have hb : code[b]? = charAt? code b := (List.get?_eq_getElem? code b).symm
  rw [hb]
  cases h : charAt? code b with
  | none => simp
  | some ch =>
    by_cases hc : ch = '\n'
    · subst hc; simp
    · simp [List.count_cons, hc, Ne.symm hc]

theorem lastIdxLe_zero (code : Code) (ch : Char) :
    lastIdxLe code ch 0
      = if charAt? code 0 == some ch then some 0 else none := rfl

theorem lastIdxLe_succ (code : Code) (ch : Char) (f : Nat) :
    lastIdxLe code ch (f + 1)
      = if charAt? code (f + 1) == some ch then some (f + 1)
        else lastIdxLe code ch f := rfl

theorem jsLastNl_succ (code : Code) (b : Nat) :
    jsLastNl code (b + 1)
      = if charAt? code b == some '\n' then (b : Int) else jsLastNl code b := by
  unfold jsLastNl
  rw [Nat.add_sub_cancel]
  cases b with
  | zero =>
    rw [Nat.zero_sub, lastIdxLe_zero]
    cases hc : charAt? code 0 == some '\n' with
    | false => simp [hc]
    | true => simp [hc]
  | succ b2 =>
    rw [lastIdxLe_succ, Nat.add_sub_cancel]
    cases hc : charAt? code (b2 + 1) == some '\n' with
    | false => simp [hc]
    | true => simp [hc]

theorem lexLE_refl (p : Nat × Int) : lexLE p p := Or.inr ⟨rfl, le_refl _⟩

theorem lexLE_trans {p q r : Nat × Int} (h1 : lexLE p q) (h2 : lexLE q r) :
    lexLE p r := by
  unfold lexLE at h1 h2 ⊢
  rcases h1 with h1 | ⟨h1a, h1b⟩ <;> rcases h2 with h2 | ⟨h2a, h2b⟩
  · exact Or.inl (Nat.lt_trans h1 h2)
  · exact Or.inl (h2a ▸ h1)
  · exact Or.inl (h1a ▸ h2)
  · exact Or.inr ⟨h1a.trans h2a, h1b.trans h2b⟩

theorem jsLastNl_of_none {code : Code} {i : Nat}
    (h : lastIdxLe code '\n' (i - 1) = none) : jsLastNl code i = -1 := by
  unfold jsLastNl
  rw [h]

theorem jsLastNl_of_some {code : Code} {i k : Nat}
    (h : lastIdxLe code '\n' (i - 1) = some k) : jsLastNl code i = (k : Int) := by
  unfold jsLastNl
  rw [h]

theorem posPair_step (code : Code) (b : Nat) :
    lexLE (posPair code b) (posPair code (b + 1)) := by
  unfold posPair lexLE
  rw [getLineNumber_eq, getLineNumber_eq, count_take_succ]
  cases h : charAt? code b == some '\n' with
  | true =>
    left
    simp [h]
  | false =>
    right
    refine ⟨by simp [h], ?_⟩
    unfold getColumnNumber
    rw [jsLastNl_succ, h]
    simp only [Bool.false_eq_true, if_false]
    omega

theorem posPair_mono (code : Code) : ∀ {a b : Nat}, a ≤ b →
    lexLE (posPair code a) (posPair code b) := by
  intro a b hab
  induction b with
  | zero =>
    have : a = 0 := Nat.le_zero.mp hab
    subst this
    exact lexLE_refl _
  | succ b2 ih =>
    rcases Nat.lt_or_ge a (b2 + 1) with hlt | hge
    · exact lexLE_trans (ih (Nat.lt_succ_iff.mp hlt)) (posPair_step code b2)
    · have : a = b2 + 1 := Nat.le_antisymm hab hge
      subst this
      exact lexLE_refl _

theorem getColumnNumber_pos {code : Code} {i : Nat}
    (h : 1 ≤ i ∨ charAt? code 0 ≠ some '\n') : 1 ≤ getColumnNumber code i := by
  unfold getColumnNumber
  cases hl : lastIdxLe code '\n' (i - 1) with
  | none =>
    rw [jsLastNl_of_none hl]
    omega
  | some k =>
    rw [jsLastNl_of_some hl]
    have hk := lastIdxLe_le hl
    rcases h with h | h
    · omega
    · rcases Nat.eq_zero_or_pos i with hi | hi
      · subst hi
        rw [Nat.zero_sub, lastIdxLe_zero] at hl
        split at hl
        · rename_i hc
          exact absurd (eq_of_beq hc) h
        · cases hl
      · omega

/-! ## Chunk-shape lemmas -/

theorem buildMetadata_line (b : Metadata) (code : Code) (idx len : Nat) :
    (buildMetadata b code idx len).line
      = (buildMetadata b code idx len).position.start.line := rfl

theorem buildMetadata_endLine (b : Metadata) (code : Code) (idx len : Nat) :
    (buildMetadata b code idx len).endLine
      = (buildMetadata b code idx len).position.endPos.line := rfl

theorem buildMetadata_lex (b : Metadata) (code : Code) (idx len : Nat) :
    lexLE ((buildMetadata b code idx len).position.start.line,
           (buildMetadata b code idx len).position.start.column)
          ((buildMetadata b code idx len).position.endPos.line,
           (buildMetadata b code idx len).position.endPos.column) := by
  have h := posPair_mono code (Nat.le_add_right idx len)
  exact h

theorem meta_of_mem {code : Code} {fp : String} {c : Chunk}
    (hmem : c ∈ chunkBallerinaCode code fp) :
    ∃ b i l, c.metadata = buildMetadata b code i l := by
  unfold chunkBallerinaCode at hmem
  simp only [List.mem_append, List.mem_map, List.mem_flatMap, List.mem_filter,
    List.mem_cons] at hmem
  rcases hmem with ((((((⟨m, -, rfl⟩ | ⟨m, -, rfl⟩) | ⟨m, -, rfl⟩) | ⟨m, -, rfl⟩) |
      ⟨m, -, rfl⟩) | ⟨sm, -, (rfl | ⟨r, -, rfl⟩)⟩) | ⟨m, -, rfl⟩) | ⟨m, -, rfl⟩
  · exact ⟨_, _, _, rfl⟩
  · exact ⟨_, _, _, rfl⟩
  · exact ⟨_, _, _, rfl⟩
  · exact ⟨_, _, _, rfl⟩
  · exact ⟨_, _, _, rfl⟩
  · exact ⟨_, _, _, rfl⟩
  · exact ⟨_, _, _, rfl⟩
  · exact ⟨_, _, _, rfl⟩
  · exact ⟨_, _, _, rfl⟩

theorem type_mkImp (code : Code) (fp : String) (m : Mtc Unit) :
    (mkImp code fp m).metadata.type = "import" := rfl

theorem type_mkConfig (code : Code) (fp : String) (m : Mtc Unit) :
    (mkConfig code fp m).metadata.type = "configurable_variable" := rfl

theorem type_mkModVar (code : Code) (fp : String) (m : Mtc Unit) :
    (mkModVar code fp m).metadata.type = "module_variable" := rfl

theorem type_mkType (code : Code) (fp : String) (m : Mtc TypeCaps) :
    (mkType code fp m).metadata.type = "type_definition" := rfl

theorem type_mkFunction (code : Code) (fp : String) (m : Mtc FunCaps) :
    (mkFunction code fp m).metadata.type = "function" := rfl

theorem type_mkService (code : Code) (fp : String) (m : Mtc SvcCaps) :
    (mkService code fp m).metadata.type = "service" := rfl

theorem type_mkResource (code : Code) (fp : String) (sm : Mtc SvcCaps) (m : Mtc ResCaps) :
    (mkResource code fp sm m).metadata.type = "resource" := rfl

theorem type_mkClass (code : Code) (fp : String) (m : Mtc ClassCaps) :
    (mkClass code fp m).metadata.type = "class" := rfl

theorem type_mkConst (code : Code) (fp : String) (m : Mtc String) :
    (mkConst code fp m).metadata.type = "constant" := rfl

/-- Every emitted chunk of type `"function"` comes from a function-classifier
match that the back-scan heuristic did not skip. -/
theorem function_chunk_src {code : Code} {fp : String} {c : Chunk}
    (hmem : c ∈ chunkBallerinaCode code fp)
    (htype : c.metadata.type = "function") :
    ∃ m, m ∈ functionMatches code ∧ skipFun code m.idx = false ∧
      c = mkFunction code fp m := by
  unfold chunkBallerinaCode at hmem
  simp only [List.mem_append, List.mem_map, List.mem_flatMap, List.mem_filter,
    List.mem_cons] at hmem
  rcases hmem with ((((((⟨m, -, rfl⟩ | ⟨m, -, rfl⟩) | ⟨m, -, rfl⟩) | ⟨m, -, rfl⟩) |
      ⟨m, hm, rfl⟩) | ⟨sm, -, (rfl | ⟨r, -, rfl⟩)⟩) | ⟨m, -, rfl⟩) | ⟨m, -, rfl⟩
  · simp only [type_mkImp] at htype; exact absurd htype (by decide)
  · simp only [type_mkConfig] at htype; exact absurd htype (by decide)
  · simp only [type_mkModVar] at htype; exact absurd htype (by decide)
  · simp only [type_mkType] at htype; exact absurd htype (by decide)
  · exact ⟨m, hm.1, by simpa using hm.2, rfl⟩
  · simp only [type_mkService] at htype; exact absurd htype (by decide)
  · simp only [type_mkResource] at htype; exact absurd htype (by decide)
  · simp only [type_mkClass] at htype; exact absurd htype (by decide)
  · simp only [type_mkConst] at htype; exact absurd htype (by decide)

/-- Every emitted chunk of type `"module_variable"` comes from a
module-variable match, hence sits at a line start whose line contains none of
the six excluded keywords. -/
theorem modvar_chunk_src {code : Code} {fp : String} {c : Chunk}
    (hmem : c ∈ chunkBallerinaCode code fp)
    (htype : c.metadata.type = "module_variable") :
    ∃ m, m ∈ modVarMatches code ∧ c = mkModVar code fp m ∧
      isLineStart code m.idx = true ∧
      (∀ kw ∈ modVarKeywords, occursIn kw (lineSeg code m.idx) = false) := by
  unfold chunkBallerinaCode at hmem
  simp only [List.mem_append, List.mem_map, List.mem_flatMap, List.mem_filter,
    List.mem_cons] at hmem
  rcases hmem with ((((((⟨m, -, rfl⟩ | ⟨m, -, rfl⟩) | ⟨m, hm, rfl⟩) | ⟨m, -, rfl⟩) |
      ⟨m, -, rfl⟩) | ⟨sm, -, (rfl | ⟨r, -, rfl⟩)⟩) | ⟨m, -, rfl⟩) | ⟨m, -, rfl⟩
  · simp only [type_mkImp] at htype; exact absurd htype (by decide)
  · simp only [type_mkConfig] at htype; exact absurd htype (by decide)
  · refine ⟨m, hm, rfl, ?_, ?_⟩
    · have htry := scanMatches_mem hm
      unfold modVarTry at htry
      split at htry
      · assumption
      · cases htry
    · have htry := scanMatches_mem hm
      unfold modVarTry at htry
      split at htry
      · split at htry
        · cases htry
        · rename_i hany
          intro kw hkw
          have hany2 : (modVarKeywords.any
              fun kw => occursIn kw (lineSeg code m.idx)) = false := by
            simpa using hany
          have h3 := List.any_eq_false.mp hany2 kw hkw
          simpa using h3
      · cases htry
  · simp only [type_mkType] at htype; exact absurd htype (by decide)
  · simp only [type_mkFunction] at htype; exact absurd htype (by decide)
  · simp only [type_mkService] at htype; exact absurd htype (by decide)
  · simp only [type_mkResource] at htype; exact absurd htype (by decide)
  · simp only [type_mkClass] at htype; exact absurd htype (by decide)
  · simp only [type_mkConst] at htype; exact absurd htype (by decide)

/-- Chunks built from a block whose type string differs from the filtered one
are all dropped. -/
theorem filter_map_nil {β : Type} {l : List β} {f : β → Chunk} {p : Chunk → Bool}
    (h : ∀ b, p (f b) = false) : (l.map f).filter p = [] :=
  List.filter_eq_nil_iff.mpr (fun c hc => by
    obtain ⟨m, -, rfl⟩ := List.mem_map.mp hc
    simp [h])

/-- The function-typed chunks of the output are exactly the images of the
unskipped function matches. -/
theorem filter_type_function (code : Code) (fp : String) :
    (chunkBallerinaCode code fp).filter (fun c => c.metadata.type == "function")
      = ((functionMatches code).filter
          (fun m => !(skipFun code m.idx))).map (mkFunction code fp) := by
  unfold chunkBallerinaCode
  repeat rw [List.filter_append]
  rw [@filter_map_nil _ _ (mkImp code fp) _ (fun m => by simp [type_mkImp])]
  rw [@filter_map_nil _ _ (mkConfig code fp) _ (fun m => by simp [type_mkConfig])]
  rw [@filter_map_nil _ _ (mkModVar code fp) _ (fun m => by simp [type_mkModVar])]
  rw [@filter_map_nil _ _ (mkType code fp) _ (fun m => by simp [type_mkType])]
  rw [@filter_map_nil _ _ (mkClass code fp) _ (fun m => by simp [type_mkClass])]
  rw [@filter_map_nil _ _ (mkConst code fp) _ (fun m => by simp [type_mkConst])]
  have hsvc : ((serviceMatches code).flatMap (fun sm =>
        mkService code fp sm ::
          (resourceMatches (svcBody code sm)).map (mkResource code fp sm))).filter
      (fun c => c.metadata.type == "function") = [] := by
    refine List.filter_eq_nil_iff.mpr (fun c hc => ?_)
    obtain ⟨sm, -, hc2⟩ := List.mem_flatMap.mp hc
    rcases List.mem_cons.mp hc2 with rfl | hc3
    · simp [type_mkService]
    · obtain ⟨r, -, rfl⟩ := List.mem_map.mp hc3
      simp [type_mkResource]
  have hfun : (((functionMatches code).filter
        (fun m => !(skipFun code m.idx))).map (mkFunction code fp)).filter
      (fun c => c.metadata.type == "function")
      = ((functionMatches code).filter
          (fun m => !(skipFun code m.idx))).map (mkFunction code fp) := by
    refine List.filter_eq_self.mpr (fun c hc => ?_)
    obtain ⟨m, -, rfl⟩ := List.mem_map.mp hc
    simp [type_mkFunction]
  rw [hsvc, hfun]
  simp

/-! ## Ordering lemmas for the emission sequence -/

theorem impMatches_pairwise (code : Code) :
    List.Pairwise (fun m1 m2 : Mtc Unit => m1.stop ≤ m2.idx) (impMatches code) :=
  scanMatches_pairwise (fun _ _ _ h => (impTry_some h).1)

theorem configMatches_pairwise (code : Code) :
    List.Pairwise (fun m1 m2 : Mtc Unit => m1.stop ≤ m2.idx) (configMatches code) :=
  scanMatches_pairwise (fun _ _ _ h => (configTry_some h).1)

theorem modVarMatches_pairwise (code : Code) :
    List.Pairwise (fun m1 m2 : Mtc Unit => m1.stop ≤ m2.idx) (modVarMatches code) :=
  scanMatches_pairwise (fun _ _ _ h => (modVarTry_some h).1)

theorem typeMatches_pairwise (code : Code) :
    List.Pairwise (fun m1 m2 : Mtc TypeCaps => m1.stop ≤ m2.idx) (typeMatches code) :=
  scanMatches_pairwise (fun _ _ _ h => (typeTry_some h).1)

theorem functionMatches_pairwise (code : Code) :
    List.Pairwise (fun m1 m2 : Mtc FunCaps => m1.stop ≤ m2.idx) (functionMatches code) :=
  scanMatches_pairwise (fun _ _ _ h => (functionTry_some h).1)

theorem serviceMatches_pairwise (code : Code) :
    List.Pairwise (fun m1 m2 : Mtc SvcCaps => m1.stop ≤ m2.idx) (serviceMatches code) :=
  scanMatches_pairwise (fun _ _ _ h => (serviceTry_some h).1)

theorem classMatches_pairwise (code : Code) :
    List.Pairwise (fun m1 m2 : Mtc ClassCaps => m1.stop ≤ m2.idx) (classMatches code) :=
  scanMatches_pairwise (fun _ _ _ h => (classTry_some h).1)

theorem constMatches_pairwise (code : Code) :
    List.Pairwise (fun m1 m2 : Mtc String => m1.stop ≤ m2.idx) (constMatches code) :=
  scanMatches_pairwise (fun _ _ _ h => (constantTry_some h).1)

theorem resourceMatches_pairwise (body : Code) :
    List.Pairwise (fun m1 m2 : Mtc ResCaps => m1.stop ≤ m2.idx) (resourceMatches body) :=
  scanMatches_pairwise (fun _ _ _ h => (resourceTry_some h).1)

theorem serviceMatches_bounds {code : Code} {sm : Mtc SvcCaps}
    (h : sm ∈ serviceMatches code) :
    sm.idx < sm.caps.bodyStart ∧ sm.caps.bodyStart ≤ sm.caps.bodyEnd ∧
      sm.caps.bodyEnd < sm.stop :=
  (serviceTry_some (scanMatches_mem h)).2.2

theorem resourceMatches_bounds {body : Code} {r : Mtc ResCaps}
    (h : r ∈ resourceMatches body) : r.idx < r.stop ∧ r.stop ≤ body.length :=
  resourceTry_some (scanMatches_mem h)

theorem svcBody_length_le (code : Code) (sm : Mtc SvcCaps) :
    (svcBody code sm).length ≤ sm.caps.bodyEnd - sm.caps.bodyStart := by
  unfold svcBody
  rw [List.length_take]
  omega

/-- Every offset of a service group lies inside the service match's span. -/
theorem svcGroup_bounds {code : Code} {sm : Mtc SvcCaps} {x : Nat}
    (hsm : sm ∈ serviceMatches code)
    (hx : x ∈ sm.idx :: (resourceMatches (svcBody code sm)).map
        (fun r => sm.caps.bodyStart + r.idx)) :
    sm.idx ≤ x ∧ x < sm.stop := by
  have hb := serviceMatches_bounds hsm
  rcases List.mem_cons.mp hx with rfl | hx2
  · have := (serviceTry_some (scanMatches_mem hsm)).1
    omega
  · obtain ⟨r, hr, rfl⟩ := List.mem_map.mp hx2
    have hrb := resourceMatches_bounds hr
    have hlen := svcBody_length_le code sm
    omega

theorem svcResOffsets_pairwise (code : Code) :
    List.Pairwise (· < ·) (svcResOffsets code) := by
  unfold svcResOffsets
  rw [List.pairwise_flatMap]
  constructor
  · intro sm hsm
    have hb := serviceMatches_bounds hsm
    refine List.Pairwise.cons ?_ ?_
    · intro x hx
      obtain ⟨r, hr, rfl⟩ := List.mem_map.mp hx
      omega
    · rw [List.pairwise_map]
      refine List.Pairwise.imp_of_mem ?_ (resourceMatches_pairwise (svcBody code sm))
      intro r1 r2 h1 h2 hle
      have := (resourceMatches_bounds h1).1
      omega
  · refine List.Pairwise.imp_of_mem ?_ (serviceMatches_pairwise code)
    intro sm1 sm2 h1 h2 hle x hx y hy
    have hx2 := svcGroup_bounds h1 hx
    have hy2 := svcGroup_bounds h2 hy
    omega

/-- The rank relation of the amended emission-order claim. -/
def rankLE (a b : Chunk) : Prop :=
  kindRank a.metadata.type ≤ kindRank b.metadata.type

instance (a b : Chunk) : Decidable (rankLE a b) := by
  unfold rankLE; exact inferInstance

theorem pairwise_rank_const {l : List Chunk} {r : Nat}
    (h : ∀ c ∈ l, kindRank c.metadata.type = r) : List.Pairwise rankLE l := by
  refine List.pairwise_of_forall_mem_list ?_
  intro a ha b hb
  unfold rankLE
  rw [h a ha, h b hb]

theorem kindRank_mono (code : Code) (fp : String) :
    List.Pairwise rankLE (chunkBallerinaCode code fp) := by
  have r1 : ∀ c ∈ (impMatches code).map (mkImp code fp),
      kindRank c.metadata.type = 0 := fun c hc => by
    obtain ⟨m, -, rfl⟩ := List.mem_map.mp hc; rfl
  have r2 : ∀ c ∈ (configMatches code).map (mkConfig code fp),
      kindRank c.metadata.type = 1 := fun c hc => by
    obtain ⟨m, -, rfl⟩ := List.mem_map.mp hc; rfl
  have r3 : ∀ c ∈ (modVarMatches code).map (mkModVar code fp),
      kindRank c.metadata.type = 2 := fun c hc => by
    obtain ⟨m, -, rfl⟩ := List.mem_map.mp hc; rfl
  have r4 : ∀ c ∈ (typeMatches code).map (mkType code fp),
      kindRank c.metadata.type = 3 := fun c hc => by
    obtain ⟨m, -, rfl⟩ := List.mem_map.mp hc; rfl
  have r5 : ∀ c ∈ ((functionMatches code).filter
        (fun m => !(skipFun code m.idx))).map (mkFunction code fp),
      kindRank c.metadata.type = 4 := fun c hc => by
    obtain ⟨m, -, rfl⟩ := List.mem_map.mp hc; rfl
  have r6 : ∀ c ∈ (serviceMatches code).flatMap (fun sm =>
        mkService code fp sm ::
          (resourceMatches (svcBody code sm)).map (mkResource code fp sm)),
      kindRank c.metadata.type = 5 := fun c hc => by
    obtain ⟨sm, -, hc2⟩ := List.mem_flatMap.mp hc
    rcases List.mem_cons.mp hc2 with rfl | hc3
    · rfl
    · obtain ⟨r, -, rfl⟩ := List.mem_map.mp hc3; rfl
  have r7 : ∀ c ∈ (classMatches code).map (mkClass code fp),
      kindRank c.metadata.type = 6 := fun c hc => by
    obtain ⟨m, -, rfl⟩ := List.mem_map.mp hc; rfl
  have r8 : ∀ c ∈ (constMatches code).map (mkConst code fp),
      kindRank c.metadata.type = 7 := fun c hc => by
    obtain ⟨m, -, rfl⟩ := List.mem_map.mp hc; rfl
  unfold chunkBallerinaCode
  simp only [List.append_assoc]
  refine List.pairwise_append.mpr ⟨pairwise_rank_const r1, ?_, ?_⟩
  on_goal 2 =>
    intro x hx y hy
    unfold rankLE
    rw [r1 x hx]
    omega
  refine List.pairwise_append.mpr ⟨pairwise_rank_const r2, ?_, ?_⟩
  on_goal 2 =>
    intro x hx y hy
    simp only [List.mem_append] at hy
    unfold rankLE
    rw [r2 x hx]
    rcases hy with hy | hy | hy | hy | hy | hy
    · rw [r3 y hy]; omega
    · rw [r4 y hy]; omega
    · rw [r5 y hy]; omega
    · rw [r6 y hy]; omega
    · rw [r7 y hy]; omega
    · rw [r8 y hy]; omega
  refine List.pairwise_append.mpr ⟨pairwise_rank_const r3, ?_, ?_⟩
  on_goal 2 =>
    intro x hx y hy
    simp only [List.mem_append] at hy
    unfold rankLE
    rw [r3 x hx]
    rcases hy with hy | hy | hy | hy | hy
    · rw [r4 y hy]; omega
    · rw [r5 y hy]; omega
    · rw [r6 y hy]; omega
    · rw [r7 y hy]; omega
    · rw [r8 y hy]; omega
  refine List.pairwise_append.mpr ⟨pairwise_rank_const r4, ?_, ?_⟩
  on_goal 2 =>
    intro x hx y hy
    simp only [List.mem_append] at hy
    unfold rankLE
    rw [r4 x hx]
    rcases hy with hy | hy | hy | hy
    · rw [r5 y hy]; omega
    · rw [r6 y hy]; omega
    · rw [r7 y hy]; omega
    · rw [r8 y hy]; omega
  refine List.pairwise_append.mpr ⟨pairwise_rank_const r5, ?_, ?_⟩
  on_goal 2 =>
    intro x hx y hy
    simp only [List.mem_append] at hy
    unfold rankLE
    rw [r5 x hx]
    rcases hy with hy | hy | hy
    · rw [r6 y hy]; omega
    · rw [r7 y hy]; omega
    · rw [r8 y hy]; omega
  refine List.pairwise_append.mpr ⟨pairwise_rank_const r6, ?_, ?_⟩
  on_goal 2 =>
    intro x hx y hy
    simp only [List.mem_append] at hy
    unfold rankLE
    rw [r6 x hx]
    rcases hy with hy | hy
    · rw [r7 y hy]; omega
    · rw [r8 y hy]; omega
  refine List.pairwise_append.mpr ⟨pairwise_rank_const r7, pairwise_rank_const r8, ?_⟩
  intro x hx y hy
  unfold rankLE
  rw [r7 x hx, r8 y hy]
  omega

/-! ## Size Bounder lemmas (spec-modelled component) -/

theorem chunksOfAux_flatten {n : Nat} (hn : 1 ≤ n) :
    ∀ (fuel : Nat) (s : List Char), s.length ≤ fuel →
      (chunksOfAux n fuel s).flatten = s := by
  intro fuel
  induction fuel with
  | zero =>
    intro s hs
    have : s = [] := List.eq_nil_of_length_eq_zero (Nat.le_zero.mp hs)
    subst this
    simp [chunksOfAux]
  | succ f ih =>
    intro s hs
    unfold chunksOfAux
    split
    · simp
    · rename_i hgt
      rw [List.flatten_cons]
      rw [ih (s.drop n) (by rw [List.length_drop]; omega)]
      exact List.take_append_drop n s

theorem chunksOfAux_mem_le {n : Nat} (hn : 1 ≤ n) :
    ∀ (fuel : Nat) (s : List Char), s.length ≤ fuel →
      ∀ p ∈ chunksOfAux n fuel s, p.length ≤ n := by
  intro fuel
  induction fuel with
  | zero =>
    intro s hs p hp
    have : s = [] := List.eq_nil_of_length_eq_zero (Nat.le_zero.mp hs)
    subst this
    simp [chunksOfAux] at hp
    subst hp
    simp
  | succ f ih =>
    intro s hs p hp
    unfold chunksOfAux at hp
    split at hp
    · rename_i hle
      simp at hp
      subst hp
      omega
    · rename_i hgt
      rcases List.mem_cons.mp hp with rfl | hp2
      · rw [List.length_take]
        omega
      · exact ih (s.drop n) (by rw [List.length_drop]; omega) p hp2

theorem chunksOf_flatten {n : Nat} (hn : 1 ≤ n) (s : List Char) :
    (chunksOf n s).flatten = s :=
  chunksOfAux_flatten hn s.length s (Nat.le_refl _)

theorem chunksOf_mem_le {n : Nat} (hn : 1 ≤ n) (s : List Char) :
    ∀ p ∈ chunksOf n s, p.length ≤ n :=
  chunksOfAux_mem_le hn s.length s (Nat.le_refl _)

theorem chunksOfAux_fuel {n : Nat} (hn : 1 ≤ n) :
    ∀ (fuel1 fuel2 : Nat) (s : List Char), s.length ≤ fuel1 → s.length ≤ fuel2 →
      chunksOfAux n fuel1 s = chunksOfAux n fuel2 s := by
  intro fuel1
  induction fuel1 with
  | zero =>
    intro fuel2 s hs1 hs2
    have : s = [] := List.eq_nil_of_length_eq_zero (Nat.le_zero.mp hs1)
    subst this
    cases fuel2 with
    | zero => rfl
    | succ f2 => simp [chunksOfAux]
  | succ f1 ih =>
    intro fuel2 s hs1 hs2
    cases fuel2 with
    | zero =>
      have : s = [] := List.eq_nil_of_length_eq_zero (Nat.le_zero.mp hs2)
      subst this
      simp [chunksOfAux]
    | succ f2 =>
      unfold chunksOfAux
      split
      · rfl
      · rename_i hgt
        rw [ih f2 (s.drop n) (by rw [List.length_drop]; omega)
          (by rw [List.length_drop]; omega)]

theorem chunksOf_step {n : Nat} (hn : 1 ≤ n) (s : List Char) :
    chunksOf n s
      = if s.length ≤ n then [s] else s.take n :: chunksOf n (s.drop n) := by
  split
  · rename_i hle
    conv_lhs => unfold chunksOf
    cases hs : s.length with
    | zero =>
      have h0 := List.eq_nil_of_length_eq_zero hs
      subst h0
      simp [chunksOfAux]
    | succ L =>
      conv_lhs => unfold chunksOfAux
      rw [if_pos hle]
  · rename_i hgt
    conv_lhs => unfold chunksOf
    cases hs : s.length with
    | zero =>
      have h0 : s.length = 0 := hs
      omega
    | succ L =>
      conv_lhs => unfold chunksOfAux
      rw [if_neg hgt]
      congr 1
      conv_rhs => unfold chunksOf
      exact chunksOfAux_fuel hn L (s.drop n).length (s.drop n)
        (by rw [List.length_drop]; omega) (Nat.le_refl _)

theorem chunksOf_3N5 {N : Nat} (hN : 5 ≤ N) (s : List Char)
    (hlen : s.length = 3 * N + 5) :
    chunksOf N s = [s.take N, (s.drop N).take N, ((s.drop N).drop N).take N,
      ((s.drop N).drop N).drop N] := by
  have h1 : (s.drop N).length = 2 * N + 5 := by rw [List.length_drop]; omega
  have h2 : ((s.drop N).drop N).length = N + 5 := by rw [List.length_drop]; omega
  have h3 : (((s.drop N).drop N).drop N).length = 5 := by rw [List.length_drop]; omega
  rw [chunksOf_step (by omega), if_neg (by omega)]
  rw [chunksOf_step (by omega), if_neg (by omega)]
  rw [chunksOf_step (by omega), if_neg (by omega)]
  rw [chunksOf_step (by omega), if_pos (by omega)]

/-! ## Claim theorems -/

/-- C1 (counterexample): in `exC1` a function (`helper`) whose match site lies
strictly inside the service construct's span — lexically inside the still-open
service block, after a `'}'` from the preceding resource — is nevertheless
emitted as a standalone `function` chunk, because the back-scan heuristic
finds the last `'}'` after the last `"service"`. -/
theorem C1_counterexample :
    ((chunkBallerinaCode exC1 "a.bal").any
      (fun c => c.metadata.type == "function" &&
        c.metadata.name == some "helper")) = true ∧
    ((serviceMatches exC1).any (fun sm => (functionMatches exC1).any
      (fun fm => sm.idx < fm.idx && fm.stop < sm.stop))) = true := by
  constructor
  · decide
  · decide

/-- C1 (amended): every chunk emitted with type `function` comes from a
function-classifier match at whose site the back-scan test
(`lastIndexOf "service"` after `lastIndexOf "}"` in the preceding text)
fails; a function match where that test holds is never emitted as a
standalone `function` chunk. -/
theorem C1_theorem : ∀ (code : Code) (fp : String) (c : Chunk),
    c ∈ chunkBallerinaCode code fp → c.metadata.type = "function" →
    ∃ m, m ∈ functionMatches code ∧ skipFun code m.idx = false ∧
      c = mkFunction code fp m :=
  fun _ _ _ hmem htype => function_chunk_src hmem htype

/-- C1 (witness): instantiation of `C1_theorem` at a concrete input. -/
theorem C1_witness :
    (c1chunk ∈ chunkBallerinaCode exFn "w.bal" ∧
      c1chunk.metadata.type = "function") ∧
    (∃ m, m ∈ functionMatches exFn ∧ skipFun exFn m.idx = false ∧
      c1chunk = mkFunction exFn "w.bal" m) := by
  have hlist : chunkBallerinaCode exFn "w.bal" = [c1chunk] := by decide
  have hmem : c1chunk ∈ chunkBallerinaCode exFn "w.bal" := by
    rw [hlist]
    exact List.mem_singleton.mpr rfl
  exact ⟨⟨hmem, by decide⟩, C1_theorem exFn "w.bal" c1chunk hmem (by decide)⟩

/-- C2 (counterexample): `exC2` holds exactly one function construct with a
non-empty body, yet `chunkBallerinaCode` emits exactly one chunk (type
`function`, no `id`), not a signature/body pair sharing an id. -/
theorem C2_counterexample :
    (chunkBallerinaCode exC2 "f.bal").length = 1 ∧
    ((chunkBallerinaCode exC2 "f.bal").map
      (fun c => (c.metadata.type, c.metadata.id))) = [("function", none)] := by
  constructor
  · decide
  · decide

/-- C2 (amended): for a file whose function classifier yields exactly one
(unskipped) match with a non-empty body, `chunkBallerinaCode` emits exactly
one chunk of type `function` for it, whose content is the full matched
group-1 text (signature and body together) and whose metadata carries no id. -/
theorem C2_theorem : ∀ (code : Code) (fp : String) (m : Mtc FunCaps),
    functionMatches code = [m] → skipFun code m.idx = false →
    m.caps.ob + 2 < m.stop →
    (chunkBallerinaCode code fp).filter
        (fun c => c.metadata.type == "function") = [mkFunction code fp m] ∧
    (mkFunction code fp m).content = sl code m.caps.g1start m.stop ∧
    (mkFunction code fp m).metadata.id = none := by
  intro code fp m h1 h2 h3
  refine ⟨?_, rfl, rfl⟩
  rw [filter_type_function, h1]
  simp [h2]

/-- C2 (witness): instantiation of `C2_theorem` at `exC2`. -/
theorem C2_witness :
    (functionMatches exC2 = [c2match] ∧ skipFun exC2 c2match.idx = false ∧
      c2match.caps.ob + 2 < c2match.stop) ∧
    ((chunkBallerinaCode exC2 "f.bal").filter
        (fun c => c.metadata.type == "function")
      = [mkFunction exC2 "f.bal" c2match] ∧
    (mkFunction exC2 "f.bal" c2match).content
      = sl exC2 c2match.caps.g1start c2match.stop ∧
    (mkFunction exC2 "f.bal" c2match).metadata.id = none) :=
  ⟨⟨by decide, by decide, by decide⟩,
    C2_theorem exC2 "f.bal" c2match (by decide) (by decide) (by decide)⟩

/-- C3 (counterexample): on the spec's service example no emitted chunk has
`servicePath` equal to `"books"` (the code keeps the leading slash), and only
one resource chunk is emitted (a single combined chunk, not a
signature/body pair). -/
theorem C3_counterexample :
    ((chunkBallerinaCode exC3 "books.bal").filter
      (fun c => c.metadata.servicePath == some "books")) = [] ∧
    ((chunkBallerinaCode exC3 "books.bal").filter
      (fun c => c.metadata.type == "resource")).length = 1 := by
  constructor
  · decide
  · decide

/-- C3 (amended): the service example yields exactly one `service` chunk
named `"books"` followed by exactly one `resource` chunk named
`"get items"` whose `servicePath` is `"/books"`, and no standalone
`function` chunk. -/
theorem C3_theorem :
    ((chunkBallerinaCode exC3 "books.bal").map
      (fun c => (c.metadata.type, c.metadata.name, c.metadata.servicePath)))
      = [("service", some "books", none),
         ("resource", some "get items", some "/books")] ∧
    ((chunkBallerinaCode exC3 "books.bal").filter
      (fun c => c.metadata.type == "function")) = [] := by
  constructor
  · decide
  · decide

/-- C4 (code defect): the chunk emitted for a plain import statement carries
neither `id` nor `hash`/`contentHash` in its metadata, although
`src/types.ts` declares both fields required on every chunk's metadata;
`buildMetadata` never assigns them. -/
theorem C4_theorem :
    ((chunkBallerinaCode exImp "i.bal").map
      (fun c => (c.metadata.type, c.metadata.id, c.metadata.hash)))
      = [("import", none, none)] := by decide

/-- C5 (counterexample): under the claim's seven-entry kind order (both
variable classifiers one kind), the output of `exC5` is not ordered
within-kind by source position: the configurable variable of line 2 is
emitted before the module variable of line 1. -/
theorem C5_counterexample :
    ¬ List.Pairwise claimOrder7 (chunkBallerinaCode exC5 "v.bal") ∧
    ((chunkBallerinaCode exC5 "v.bal").map
      (fun c => (specKindRank7 c.metadata.type, c.metadata.position.start.line)))
      = [(1, 2), (1, 1)] := by
  constructor
  · decide
  · decide

/-- C5 (amended): the emitted sequence is the concatenation of the eight
classifier blocks in source order (imports, configurable variables, module
variables, types, functions, services with their resources, classes,
constants); the eight-entry kind rank is monotone over the whole output, and
within every classifier each match starts at or after the previous match's
end (so matches are strictly left to right); in the service/resource block
the file-absolute offsets (each service's start followed by its resources'
`bodyStart + index`) are strictly increasing. -/
theorem C5_theorem : ∀ (code : Code) (fp : String),
    chunkBallerinaCode code fp
      = (impMatches code).map (mkImp code fp) ++
        (configMatches code).map (mkConfig code fp) ++
        (modVarMatches code).map (mkModVar code fp) ++
        (typeMatches code).map (mkType code fp) ++
        ((functionMatches code).filter
          (fun m => !(skipFun code m.idx))).map (mkFunction code fp) ++
        (serviceMatches code).flatMap (fun sm =>
          mkService code fp sm ::
            (resourceMatches (svcBody code sm)).map (mkResource code fp sm)) ++
        (classMatches code).map (mkClass code fp) ++
        (constMatches code).map (mkConst code fp) ∧
    List.Pairwise rankLE (chunkBallerinaCode code fp) ∧
    List.Pairwise (fun m1 m2 : Mtc Unit => m1.stop ≤ m2.idx) (impMatches code) ∧
    List.Pairwise (fun m1 m2 : Mtc Unit => m1.stop ≤ m2.idx) (configMatches code) ∧
    List.Pairwise (fun m1 m2 : Mtc Unit => m1.stop ≤ m2.idx) (modVarMatches code) ∧
    List.Pairwise (fun m1 m2 : Mtc TypeCaps => m1.stop ≤ m2.idx) (typeMatches code) ∧
    List.Pairwise (fun m1 m2 : Mtc FunCaps => m1.stop ≤ m2.idx) (functionMatches code) ∧
    List.Pairwise (fun m1 m2 : Mtc ClassCaps => m1.stop ≤ m2.idx) (classMatches code) ∧
    List.Pairwise (fun m1 m2 : Mtc String => m1.stop ≤ m2.idx) (constMatches code) ∧
    List.Pairwise (· < ·) (svcResOffsets code) :=
  fun code fp =>
    ⟨rfl, kindRank_mono code fp, impMatches_pairwise code,
      configMatches_pairwise code, modVarMatches_pairwise code,
      typeMatches_pairwise code, functionMatches_pairwise code,
      classMatches_pairwise code, constMatches_pairwise code,
      svcResOffsets_pairwise code⟩

/-- C6 (counterexample): on a text whose first character is a newline, the
column computed for offset 0 is 0, not 1 — the JS `lastIndexOf("\n", -1)`
clamp finds the leading newline, so the column is not 1-based there. -/
theorem C6_counterexample :
    getColumnNumber (String.toList "\nx") 0 = 0 := by decide

/-- C6 (amended): the position pair is lexicographically monotone in the
offset; the line is `1 + (number of '\n' before the offset)` — hence 1-based,
counting `\r\n` once via its `'\n'` — and the column is 1-based at every
offset except offset 0 of a text starting with a newline. -/
theorem C6_theorem : ∀ (c : Code) (a b : Nat), a ≤ b →
    lexLE (posPair c a) (posPair c b) ∧
    1 ≤ getLineNumber c a ∧
    getLineNumber c a = (c.take a).count '\n' + 1 ∧
    ((1 ≤ a ∨ charAt? c 0 ≠ some '\n') → 1 ≤ getColumnNumber c a) :=
  fun c a _b hab =>
    ⟨posPair_mono c hab, getLineNumber_pos c a, getLineNumber_eq c a,
      fun h2 => getColumnNumber_pos h2⟩

/-- C6 (witness): instantiation of `C6_theorem` at a concrete text. -/
theorem C6_witness :
    1 ≤ 4 ∧
    (lexLE (posPair (String.toList "ab\ncd") 1) (posPair (String.toList "ab\ncd") 4) ∧
     1 ≤ getLineNumber (String.toList "ab\ncd") 1 ∧
     getLineNumber (String.toList "ab\ncd") 1
       = ((String.toList "ab\ncd").take 1).count '\n' + 1 ∧
     ((1 ≤ 1 ∨ charAt? (String.toList "ab\ncd") 0 ≠ some '\n') →
       1 ≤ getColumnNumber (String.toList "ab\ncd") 1)) :=
  ⟨by decide, C6_theorem (String.toList "ab\ncd") 1 4 (by decide)⟩

/-- C7: `chunkBallerinaCode` is a pure function of its two arguments — two
runs on equal text and equal file path produce equal chunk sequences, every
field included. -/
theorem C7_theorem : ∀ (code1 code2 : Code) (fp1 fp2 : String),
    code1 = code2 → fp1 = fp2 →
    chunkBallerinaCode code1 fp1 = chunkBallerinaCode code2 fp2 := by
  intro code1 code2 fp1 fp2 h1 h2
  rw [h1, h2]

/-- C7 (witness): instantiation at a concrete input. -/
theorem C7_witness :
    (exImp = exImp ∧ "i.bal" = ("i.bal" : String)) ∧
    chunkBallerinaCode exImp "i.bal" = chunkBallerinaCode exImp "i.bal" :=
  ⟨⟨rfl, rfl⟩, C7_theorem exImp exImp "i.bal" "i.bal" rfl rfl⟩

/-- C9 (counterexample): the single declaration `final int x = 1;` is emitted
both as a `module_variable` chunk and as a `constant` chunk with the same
content — the module-variable lookahead excludes six keywords but not
`final`. -/
theorem C9_counterexample :
    ((chunkBallerinaCode exC9 "c.bal").map
      (fun c => (c.metadata.type, c.content)))
      = [("module_variable", "final int x = 1;"),
         ("constant", "final int x = 1;")] := by decide

/-- C9 (amended): every `module_variable` chunk comes from a line-start match
whose line contains none of `function`, `service`, `resource`, `type`,
`import`, `configurable`; declarations matching other kinds outside that
keyword list — such as a `final` constant — can also be emitted under the
other kind. -/
theorem C9_theorem : ∀ (code : Code) (fp : String) (c : Chunk),
    c ∈ chunkBallerinaCode code fp → c.metadata.type = "module_variable" →
    ∃ m, m ∈ modVarMatches code ∧ c = mkModVar code fp m ∧
      isLineStart code m.idx = true ∧
      (∀ kw ∈ modVarKeywords, occursIn kw (lineSeg code m.idx) = false) :=
  fun _ _ _ hmem htype => modvar_chunk_src hmem htype

/-- C9 (witness): instantiation of `C9_theorem` at `exC9`. -/
theorem C9_witness :
    (c9chunk ∈ chunkBallerinaCode exC9 "c.bal" ∧
      c9chunk.metadata.type = "module_variable") ∧
    (∃ m, m ∈ modVarMatches exC9 ∧ c9chunk = mkModVar exC9 "c.bal" m ∧
      isLineStart exC9 m.idx = true ∧
      (∀ kw ∈ modVarKeywords, occursIn kw (lineSeg exC9 m.idx) = false)) := by
  have hlist : chunkBallerinaCode exC9 "c.bal"
      = c9chunk :: (chunkBallerinaCode exC9 "c.bal").drop 1 := by decide
  have hmem : c9chunk ∈ chunkBallerinaCode exC9 "c.bal" := by
    rw [hlist]
    exact List.mem_cons_self _ _
  exact ⟨⟨hmem, by decide⟩, C9_theorem exC9 "c.bal" c9chunk hmem (by decide)⟩

/-- C10: for every input and every emitted chunk, `metadata.line` and
`metadata.endLine` equal the position object's start/end lines, and the start
position is not lexicographically after the end position (both are computed
at the match's start offset and start offset plus its non-negative length). -/
theorem C10_theorem : ∀ (code : Code) (fp : String) (c : Chunk),
    c ∈ chunkBallerinaCode code fp →
    c.metadata.line = c.metadata.position.start.line ∧
    c.metadata.endLine = c.metadata.position.endPos.line ∧
    lexLE (c.metadata.position.start.line, c.metadata.position.start.column)
          (c.metadata.position.endPos.line, c.metadata.position.endPos.column) := by
  intro code fp c hmem
  obtain ⟨b, i, l, hmeta⟩ := meta_of_mem hmem
  rw [hmeta]
  exact ⟨buildMetadata_line b code i l, buildMetadata_endLine b code i l,
    buildMetadata_lex b code i l⟩

/-- C10 (witness): instantiation at the import example's single chunk. -/
theorem C10_witness :
    c10chunk ∈ chunkBallerinaCode exImp "i.bal" ∧
    (c10chunk.metadata.line = c10chunk.metadata.position.start.line ∧
     c10chunk.metadata.endLine = c10chunk.metadata.position.endPos.line ∧
     lexLE (c10chunk.metadata.position.start.line,
            c10chunk.metadata.position.start.column)
           (c10chunk.metadata.position.endPos.line,
            c10chunk.metadata.position.endPos.column)) := by
  have hlist : chunkBallerinaCode exImp "i.bal" = [c10chunk] := by decide
  have hmem : c10chunk ∈ chunkBallerinaCode exImp "i.bal" := by
    rw [hlist]
    exact List.mem_singleton.mpr rfl
  exact ⟨hmem, C10_theorem exImp "i.bal" c10chunk hmem⟩

/-- C8 (counterexample): the 4-part example fails for small bounds — a body
of length 3 * 1 + 5 = 8 with `maxLength = 1` splits into 8 single-character
parts, not 4. -/
theorem C8_counterexample :
    (boundChunk { id := "f.bal:function:f:1", kind := "function_body",
                  content := "abcdefgh" } 1).length = 8 ∧ 8 = 3 * 1 + 5 := by
  constructor
  · decide
  · decide

/-- C8 (amended): for a positive bound, a fitting chunk is returned unchanged
as a singleton; otherwise the content is cut into consecutive in-order
slices whose concatenation restores it, each slice at most `maxLength` long,
keeping the original id and kind, carrying 1-based part indices and the
total part count; and — provided `5 ≤ N` — a content of length `3 * N + 5`
splits into parts of lengths `N`, `N`, `N`, `5`. -/
theorem C8_theorem : ∀ (c : SChunk) (N : Nat), 0 < N →
    (c.content.length ≤ N → boundChunk c N = [c]) ∧
    (((boundChunk c N).map (fun p => p.content.toList)).flatten
      = c.content.toList) ∧
    (∀ p ∈ boundChunk c N,
      p.id = c.id ∧ p.kind = c.kind ∧ p.content.length ≤ N) ∧
    (N < c.content.length →
      (boundChunk c N).map SChunk.part
          = (List.range (boundChunk c N).length).map (fun i => some (i + 1)) ∧
      ∀ p ∈ boundChunk c N, p.totalParts = some (boundChunk c N).length) ∧
    (5 ≤ N → c.content.length = 3 * N + 5 →
      (boundChunk c N).map (fun p => p.content.length) = [N, N, N, 5]) := by
  intro c N hN
  by_cases hle : c.content.length ≤ N
  · have hb : boundChunk c N = [c] := by
      simp only [boundChunk]
      rw [if_pos hle]
    refine ⟨fun _ => hb, ?_, ?_, ?_, ?_⟩
    · rw [hb]
      simp
    · rw [hb]
      intro p hp
      rw [List.mem_singleton] at hp
      subst hp
      exact ⟨rfl, rfl, hle⟩
    · intro hlt
      exact absurd hlt (by omega)
    · intro h5 hlen
      exact absurd hlen (by omega)
  · have hb : boundChunk c N
        = (chunksOf N c.content.toList).enum.map (fun pr =>
            { c with
              content := String.mk pr.2
              part := some (pr.1 + 1)
              totalParts := some (chunksOf N c.content.toList).length }) := by
      simp only [boundChunk]
      rw [if_neg hle]
    have hflat := chunksOf_flatten hN c.content.toList
    have hml := chunksOf_mem_le hN c.content.toList
    refine ⟨fun hcon => absurd hcon hle, ?_, ?_, ?_, ?_⟩
    · rw [hb, List.map_map]
      have hc : ((fun p : SChunk => p.content.toList) ∘
          (fun pr : Nat × List Char =>
            ({ c with
               content := String.mk pr.2
               part := some (pr.1 + 1)
               totalParts := some (chunksOf N c.content.toList).length }
              : SChunk))) = Prod.snd := rfl
      rw [hc, List.enum_map_snd]
      exact hflat
    · rw [hb]
      intro p hp
      obtain ⟨pr, hpr, rfl⟩ := List.mem_map.mp hp
      refine ⟨rfl, rfl, ?_⟩
      have hpr2 : pr ∈ (List.range (chunksOf N c.content.toList).length).zip
          (chunksOf N c.content.toList) := by
        rw [← List.enum_eq_zip_range]
        exact hpr
      exact hml _ (List.of_mem_zip hpr2).2
    · intro _
      constructor
      · rw [hb, List.map_map, List.length_map, List.enum_length,
            ← List.enum_map_fst, List.map_map]
        rfl
      · rw [hb]
        intro p hp
        obtain ⟨pr, hpr, rfl⟩ := List.mem_map.mp hp
        simp only [List.length_map, List.enum_length]
    · intro h5 hlen
      have hlen2 : c.content.toList.length = 3 * N + 5 := hlen
      have hP := chunksOf_3N5 h5 c.content.toList hlen2
      rw [hb, List.map_map]
      have hc2 : ((fun p : SChunk => p.content.length) ∘
          (fun pr : Nat × List Char =>
            ({ c with
               content := String.mk pr.2
               part := some (pr.1 + 1)
               totalParts := some (chunksOf N c.content.toList).length }
              : SChunk))) = List.length ∘ Prod.snd := rfl
      rw [hc2, ← List.map_map, List.enum_map_snd, hP]
      simp only [List.map_cons, List.map_nil, List.length_take,
        List.length_drop, List.cons.injEq, and_true]
      refine ⟨?_, ?_, ?_, ?_⟩ <;> omega

/-- C8 (witness): instantiation of `C8_theorem` at a 26-character content
with bound 7 (26 = 3 * 7 + 5). -/
theorem C8_witness :
    0 < 7 ∧
    ((c8chunk.content.length ≤ 7 → boundChunk c8chunk 7 = [c8chunk]) ∧
     (((boundChunk c8chunk 7).map (fun p => p.content.toList)).flatten
       = c8chunk.content.toList) ∧
     (∀ p ∈ boundChunk c8chunk 7,
       p.id = c8chunk.id ∧ p.kind = c8chunk.kind ∧ p.content.length ≤ 7) ∧
     (7 < c8chunk.content.length →
       (boundChunk c8chunk 7).map SChunk.part
           = (List.range (boundChunk c8chunk 7).length).map
               (fun i => some (i + 1)) ∧
       ∀ p ∈ boundChunk c8chunk 7,
         p.totalParts = some (boundChunk c8chunk 7).length) ∧
     (5 ≤ 7 → c8chunk.content.length = 3 * 7 + 5 →
       (boundChunk c8chunk 7).map (fun p => p.content.length)
         = [7, 7, 7, 5])) :=
  ⟨by decide, C8_theorem c8chunk 7 (by decide)⟩
